import Mathlib

set_option linter.unusedSectionVars false
set_option linter.unnecessarySeqFocus false

/-!
# Verification of the FFTConvolution GSL engine

This file embeds `src/Convolution/src/convolution_gsl.h` (namespace
`GSL_Convolution`): a 2-D convolution engine that packs a real source and a
real kernel into one complex working buffer, forward-transforms it row-wise
and column-wise, applies a closed-form pointwise spectral product, inverse
transforms, and extracts a mode-specific sub-region into the destination.

Modelling choices:
* `double` arithmetic is idealized as an abstract field `R`.
* a complex sample (one interleaved re/im pair of the GSL buffer) is a `Cx R`.
* the external 1-D complex DFT primitive (GSL's `gsl_fft_complex_forward` /
  `gsl_fft_complex_inverse`) is modelled from the spec, parameterized by the
  wavetable root of unity stored in the workspace.
* flat caller arrays (`double *`) stay flat functions `Nat -> R`; the working
  buffers are indexed by (row, column).
-/

namespace FFTConv

/-- Complex numbers over a base commutative ring, as explicit real/imaginary
pairs.  A GSL working buffer stores a complex sample as two adjacent doubles
(even offset = real, odd offset = imaginary); we model the pair as `Cx R`. -/
@[ext]
structure Cx (R : Type) where
  re : R
  im : R
deriving DecidableEq

namespace Cx

variable {R : Type} [CommRing R]

instance : Zero (Cx R) := ⟨⟨0, 0⟩⟩

instance : One (Cx R) := ⟨⟨1, 0⟩⟩

instance : Add (Cx R) := ⟨fun a b => ⟨a.re + b.re, a.im + b.im⟩⟩

instance : Neg (Cx R) := ⟨fun a => ⟨-a.re, -a.im⟩⟩

instance : Mul (Cx R) := ⟨fun a b => ⟨a.re * b.re - a.im * b.im, a.re * b.im + a.im * b.re⟩⟩

@[simp] theorem zero_re : (0 : Cx R).re = 0 := rfl

@[simp] theorem zero_im : (0 : Cx R).im = 0 := rfl

@[simp] theorem one_re : (1 : Cx R).re = 1 := rfl

@[simp] theorem one_im : (1 : Cx R).im = 0 := rfl

@[simp] theorem add_re (a b : Cx R) : (a + b).re = a.re + b.re := rfl

@[simp] theorem add_im (a b : Cx R) : (a + b).im = a.im + b.im := rfl

@[simp] theorem neg_re (a : Cx R) : (-a).re = -a.re := rfl

@[simp] theorem neg_im (a : Cx R) : (-a).im = -a.im := rfl

@[simp] theorem mul_re (a b : Cx R) : (a * b).re = a.re * b.re - a.im * b.im := rfl

@[simp] theorem mul_im (a b : Cx R) : (a * b).im = a.re * b.im + a.im * b.re := rfl

@[simp] theorem mk_eta (a : Cx R) : Cx.mk a.re a.im = a := rfl

instance instCommRing : CommRing (Cx R) where
  add_assoc a b c := by ext <;> simp <;> ring
  zero_add a := by ext <;> simp
  add_zero a := by ext <;> simp
  add_comm a b := by ext <;> simp <;> ring
  neg_add_cancel a := by ext <;> simp
  mul_assoc a b c := by ext <;> simp <;> ring
  one_mul a := by ext <;> simp
  mul_one a := by ext <;> simp
  left_distrib a b c := by ext <;> simp <;> ring
  right_distrib a b c := by ext <;> simp <;> ring
  zero_mul a := by ext <;> simp
  mul_zero a := by ext <;> simp
  mul_comm a b := by ext <;> simp <;> ring
  nsmul := nsmulRec
  zsmul := zsmulRec

/-- Complex conjugation on the pair representation. -/
def cconj (a : Cx R) : Cx R := ⟨a.re, -a.im⟩

@[simp] theorem cconj_re (a : Cx R) : (cconj a).re = a.re := rfl

@[simp] theorem cconj_im (a : Cx R) : (cconj a).im = -a.im := rfl

@[simp] theorem cconj_add (a b : Cx R) : cconj (a + b) = cconj a + cconj b := by
  ext <;> simp [cconj] <;> ring

@[simp] theorem cconj_mul (a b : Cx R) : cconj (a * b) = cconj a * cconj b := by
  ext <;> simp [cconj] <;> ring

@[simp] theorem cconj_cconj (a : Cx R) : cconj (cconj a) = a := by
  ext <;> simp [cconj]

@[simp] theorem cconj_one : cconj (1 : Cx R) = 1 := by
  ext <;> simp [cconj]

theorem cconj_pow (a : Cx R) (n : ℕ) : cconj (a ^ n) = cconj a ^ n := by
  induction n with
  | zero => simp
  | succ m ih => rw [pow_succ, cconj_mul, ih, pow_succ]

/-- A real scalar embedded on the real axis. -/
def ofR (x : R) : Cx R := ⟨x, 0⟩

@[simp] theorem ofR_re (x : R) : (ofR x).re = x := rfl

@[simp] theorem ofR_im (x : R) : (ofR x).im = 0 := rfl

@[simp] theorem ofR_mul (x y : R) : ofR x * ofR y = ofR (x * y) := by
  ext <;> simp [ofR]

@[simp] theorem ofR_add (x y : R) : ofR x + ofR y = ofR (x + y) := by
  ext <;> simp [ofR]

@[simp] theorem cconj_ofR (x : R) : cconj (ofR x) = ofR x := by
  ext <;> simp [ofR, cconj]

/-- The imaginary unit. -/
def junit : Cx R := ⟨0, 1⟩

@[simp] theorem junit_re : (junit : Cx R).re = 0 := rfl

@[simp] theorem junit_im : (junit : Cx R).im = 1 := rfl

@[simp] theorem cconj_junit : cconj (junit : Cx R) = -junit := by
  ext <;> simp [junit, cconj]

end Cx

/-! ## The size optimizer (external collaborator `factorize.h`)

`find_closest_factor` is declared in `factorize.h`, which is not part of this
repository snapshot; only its caller `init_workspace` and the factor table
`GSL_FACTORS` are.  It is modelled from the spec (§4.1): it "returns the
smallest integer n ≥ minimum such that n can be written as a product of one
or more values drawn (with repetition) from `allowed_factors`". -/

/-- The allowed factor table `GSL_FACTORS = {7,6,5,4,3,2}`; the trailing `0`
of the C array is an end-of-array marker, not a factor. -/
def GSL_FACTORS : List ℕ := [7, 6, 5, 4, 3, 2]

/-- Modelled from the spec: `n` "can be written as a product of one or more
values drawn (with repetition) from `allowed_factors`" (§4.1). -/
def IsFactorProduct (factors : List ℕ) (n : ℕ) : Prop :=
  ∃ l : List ℕ, l ≠ [] ∧ (∀ x ∈ l, x ∈ factors) ∧ l.prod = n

theorem isFactorProduct_gsl_iff (n : ℕ) :
    IsFactorProduct GSL_FACTORS n ↔ 2 ≤ n ∧ ∀ p ∈ n.primeFactorsList, p ≤ 7 := by
  constructor
  · rintro ⟨l, hne, hmem, hprod⟩
    have h2 : 2 ≤ n := by
      subst hprod
      induction l with
      | nil => exact absurd rfl hne
      | cons a t ih =>
        have ha : 2 ≤ a := by
          have := hmem a (List.mem_cons_self a t)
          simp [GSL_FACTORS] at this
          omega
        have ht : 1 ≤ t.prod := by
          have : ∀ x ∈ t, 0 < x := by
            intro x hx
            have := hmem x (List.mem_cons_of_mem a hx)
            simp [GSL_FACTORS] at this
            omega
          exact Nat.succ_le_of_lt (List.prod_pos this)
        calc 2 = 2 * 1 := by ring
        _ ≤ a * t.prod := Nat.mul_le_mul ha ht
        _ = (a :: t).prod := (List.prod_cons).symm
    refine ⟨h2, ?_⟩
    intro p hp
    have hn0 : n ≠ 0 := by omega
    have hpp : p.Prime ∧ p ∣ n := (Nat.mem_primeFactorsList hn0).mp hp
    obtain ⟨hpprime, hpdvd⟩ := hpp
    rw [← hprod] at hpdvd
    have : ∃ a ∈ l, p ∣ a := (Prime.dvd_prod_iff (Nat.Prime.prime hpprime)).mp hpdvd
    obtain ⟨a, hal, hpa⟩ := this
    have ha7 : a ≤ 7 ∧ 2 ≤ a := by
      have := hmem a hal
      simp [GSL_FACTORS] at this
      omega
    have := Nat.le_of_dvd (by omega) hpa
    omega
  · rintro ⟨h2, hsmall⟩
    have hn0 : n ≠ 0 := by omega
    refine ⟨n.primeFactorsList, ?_, ?_, Nat.prod_primeFactorsList hn0⟩
    · intro hnil
      have := Nat.prod_primeFactorsList hn0
      rw [hnil] at this
      simp at this
      omega
    · intro p hp
      have hpp := (Nat.mem_primeFactorsList hn0).mp hp
      have hp7 := hsmall p hp
      have hp2 := hpp.1.two_le
      have : p = 2 ∨ p = 3 ∨ p = 4 ∨ p = 5 ∨ p = 6 ∨ p = 7 := by omega
      rcases this with h | h | h | h | h | h <;> subst h <;> simp [GSL_FACTORS]

instance decIsFactorProductGsl : DecidablePred (IsFactorProduct GSL_FACTORS) := fun n =>
  decidable_of_iff (2 ≤ n ∧ ∀ p ∈ n.primeFactorsList, p ≤ 7) (isFactorProduct_gsl_iff n).symm

theorem exists_factor_product_ge (m : ℕ) :
    ∃ n, m ≤ n ∧ IsFactorProduct GSL_FACTORS n := by
  refine ⟨2 ^ (m + 1), ?_, List.replicate (m + 1) 2, ?_, ?_, ?_⟩
  · calc m ≤ 2 ^ m := Nat.le_of_lt (Nat.lt_two_pow m)
    _ ≤ 2 ^ (m + 1) := Nat.pow_le_pow_right (by omega) (by omega)
  · simp
  · intro x hx
    rw [List.eq_of_mem_replicate hx]
    simp [GSL_FACTORS]
  · simp

/-- Modelled from the spec: `find_closest_factor(minimum, allowed_factors)`
returns the smallest integer `n ≥ minimum` expressible purely as a product of
the allowed factors (§4.1, §6).  The factor table is fixed to `GSL_FACTORS`
as in the source. -/
def find_closest_factor (m : ℕ) : ℕ := Nat.find (exists_factor_product_ge m)

theorem le_find_closest_factor (m : ℕ) : m ≤ find_closest_factor m :=
  (Nat.find_spec (exists_factor_product_ge m)).1

theorem find_closest_factor_eq_self (m : ℕ) (h : IsFactorProduct GSL_FACTORS m) :
    find_closest_factor m = m := by
  refine le_antisymm ?_ (le_find_closest_factor m)
  unfold find_closest_factor
  exact Nat.find_le ⟨le_refl m, h⟩

theorem find_closest_factor_two : find_closest_factor 2 = 2 :=
  find_closest_factor_eq_self 2 ⟨[2], by simp, by intro x hx; simp at hx; simp [hx, GSL_FACTORS], by simp⟩

theorem find_closest_factor_four : find_closest_factor 4 = 4 :=
  find_closest_factor_eq_self 4 ⟨[4], by simp, by intro x hx; simp at hx; simp [hx, GSL_FACTORS], by simp⟩

/-! ## Data model: mode, workspace, state -/

/-- The `GSL_Convolution_Mode` enumeration. -/
inductive GSL_Convolution_Mode
  | LINEAR
  | LINEAR_OPTIMAL
  | CIRCULAR
  | CIRCULAR_OPTIMAL
deriving DecidableEq

open GSL_Convolution_Mode

/-- The integer value of each enumerator.  C enums are integers and
`convolve` dispatches on the stored value with a diagnostic default branch,
so the workspace stores the raw integer code. -/
def modeCode : GSL_Convolution_Mode → ℕ
  | LINEAR => 0
  | LINEAR_OPTIMAL => 1
  | CIRCULAR => 2
  | CIRCULAR_OPTIMAL => 3

/-- The `Workspace` struct.  The two GSL wavetables (`wv_line` of length
`w_res`, `wv_column` of length `h_res`) are modelled from the spec as the
primitive root of unity used by the external DFT collaborator for that
length; the scratch workspaces `ws_line` / `ws_column` carry no observable
state and are omitted.  The buffers `fft` / `fft_copy` live in `State`. -/
structure Workspace (R : Type) where
  h_src : ℕ
  w_src : ℕ
  h_kernel : ℕ
  w_kernel : ℕ
  h_res : ℕ
  w_res : ℕ
  mode : ℕ
  wv_column : Cx R
  wv_line : Cx R

/-- The mutable arrays `convolve` touches: the caller's flat `src`, `kernel`
and `dst` arrays, and the workspace's two complex working buffers (indexed
here by (row, column) complex cell rather than by flat interleaved double). -/
structure State (R : Type) where
  src : ℕ → R
  kernel : ℕ → R
  dst : ℕ → R
  fft : ℕ → ℕ → Cx R
  fft_copy : ℕ → ℕ → Cx R

/-- `init_workspace` (lines 35-72): stores the geometry and computes the
working dimensions per mode.  The wavetable roots are taken as parameters
(the C code allocates them from the computed lengths; the model cannot
conjure a root of unity from a length over an abstract field). -/
def init_workspace {R : Type} (mode : GSL_Convolution_Mode)
    (h_src w_src h_kernel w_kernel : ℕ) (wv_column wv_line : Cx R) : Workspace R :=
  { h_src := h_src
    w_src := w_src
    h_kernel := h_kernel
    w_kernel := w_kernel
    mode := modeCode mode
    h_res := match mode with
      | LINEAR => h_src + (h_kernel + 1) / 2
      | LINEAR_OPTIMAL => find_closest_factor (h_src + (h_kernel + 1) / 2)
      | CIRCULAR => h_src + h_kernel
      | CIRCULAR_OPTIMAL => find_closest_factor (h_src + h_kernel)
    w_res := match mode with
      | LINEAR => w_src + (w_kernel + 1) / 2
      | LINEAR_OPTIMAL => find_closest_factor (w_src + (w_kernel + 1) / 2)
      | CIRCULAR => w_src + w_kernel
      | CIRCULAR_OPTIMAL => find_closest_factor (w_src + w_kernel)
    wv_column := wv_column
    wv_line := wv_line }

/-! ## The external DFT primitive and the shared transform stage -/

variable {R : Type}

/-- Modelled from the spec: the forward 1-D complex DFT of length `N` used
by `gsl_fft_complex_forward`, with wavetable root `ζ`
(`X k = Σ_j x j · ζ^(j·k)`, GSL convention `ζ = exp(-2πi/N)`). -/
def dft1 [Field R] (ζ : Cx R) (N : ℕ) (x : ℕ → Cx R) (k : ℕ) : Cx R :=
  ∑ j ∈ Finset.range N, x j * ζ ^ (j * k)

/-- Modelled from the spec: the inverse 1-D complex DFT of length `N` used by
`gsl_fft_complex_inverse`: the conjugate root (`ζ^(N-1) = ζ⁻¹` for a root of
unity) and the 1/N normalization. -/
def idft1 [Field R] (ζ : Cx R) (N : ℕ) (x : ℕ → Cx R) (k : ℕ) : Cx R :=
  Cx.ofR (N : R)⁻¹ * ∑ j ∈ Finset.range N, x j * (ζ ^ (N - 1)) ^ (j * k)

/-- Forward FFT applied to every line (buffer row), as in the per-row loop
shared by all four routines. -/
def forward_lines [Field R] (ζ : Cx R) (W : ℕ) (b : ℕ → ℕ → Cx R) : ℕ → ℕ → Cx R :=
  fun i k => dft1 ζ W (b i) k

/-- Forward FFT applied to every column, as in the per-column loop shared by
all four routines. -/
def forward_columns [Field R] (ζ : Cx R) (H : ℕ) (b : ℕ → ℕ → Cx R) : ℕ → ℕ → Cx R :=
  fun k j => dft1 ζ H (fun i => b i j) k

/-- Inverse FFT applied to every line. -/
def inverse_lines [Field R] (ζ : Cx R) (W : ℕ) (b : ℕ → ℕ → Cx R) : ℕ → ℕ → Cx R :=
  fun i k => idft1 ζ W (b i) k

/-- Inverse FFT applied to every column. -/
def inverse_columns [Field R] (ζ : Cx R) (H : ℕ) (b : ℕ → ℕ → Cx R) : ℕ → ℕ → Cx R :=
  fun k j => idft1 ζ H (fun i => b i j) k

/-- The pointwise spectral product (lines 135-148, repeated verbatim at
214-229, 311-326 and 421-436): from the transformed packed buffer `b`, each
output cell (i,j) is computed from `b i j` and the value of `b` at the
mirrored cell `((H-i)%H, (W-j)%W)` with negated imaginary part, via
`re = 0.5·(re_h·im_h − re_hs·im_hs)` and
`im = −0.25·(re_h² − im_h² − re_hs² + im_hs²)`. -/
def spectral_product [Field R] (H W : ℕ) (b : ℕ → ℕ → Cx R) : ℕ → ℕ → Cx R :=
  fun i j =>
    let re_h := (b i j).re
    let im_h := (b i j).im
    let re_hs := (b ((H - i) % H) ((W - j) % W)).re
    let im_hs := -((b ((H - i) % H) ((W - j) % W)).im)
    ⟨(1 / 2 : R) * (re_h * im_h - re_hs * im_hs),
      -(1 / 4 : R) * (re_h * re_h - im_h * im_h - re_hs * re_hs + im_hs * im_hs)⟩

/-- The transform / spectral-product / inverse-transform stage, identical in
all four routines (the C file repeats these lines verbatim in each): forward
FFT on every line then every column of the packed buffer, the pointwise
spectral product into the copy buffer, then inverse FFT on every line then
every column of the copy.  Returns (forward-transformed `fft` buffer, final
`fft_copy` buffer). -/
def transformStage [Field R] (ws : Workspace R) (buf : ℕ → ℕ → Cx R) :
    (ℕ → ℕ → Cx R) × (ℕ → ℕ → Cx R) :=
  let f2 := forward_columns ws.wv_column ws.h_res (forward_lines ws.wv_line ws.w_res buf)
  let p := spectral_product ws.h_res ws.w_res f2
  (f2, inverse_columns ws.wv_column ws.h_res (inverse_lines ws.wv_line ws.w_res p))

/-! ## Packing layouts -/

/-- A sequence of scalar stores into a (row, column)-indexed channel,
applied in program order (later stores win). -/
def applyWrites (l : List ((ℕ × ℕ) × R)) (f : ℕ × ℕ → R) : ℕ × ℕ → R :=
  l.foldl (fun g p => Function.update g p.1 p.2) f

/-- The kernel-recentering index used by the kernel packing loops:
`i_src = i - half; if (i_src < 0) i_src += res` (ℕ version of the int
arithmetic; the conditional add happens exactly when `i < half`). -/
def recenter (i half res : ℕ) : ℕ :=
  if i < half then i + res - half else i - half

/-- Source stores of `linear_convolution` (lines 100-102): the source is
copied row-major into the real channel at rows [0,h_src), cols [0,w_src). -/
def srcWritesLinear (ws : Workspace R) (src : ℕ → R) : List ((ℕ × ℕ) × R) :=
  (List.range ws.h_src).flatMap fun i =>
    (List.range ws.w_src).map fun j => ((i, j), src (i * ws.w_src + j))

/-- Kernel stores of `linear_convolution` (lines 106-119): cell (i,j) of the
kernel goes to the imaginary channel at the recentered wrapped position. -/
def kernelWritesLinear (ws : Workspace R) (kernel : ℕ → R) : List ((ℕ × ℕ) × R) :=
  (List.range ws.h_kernel).flatMap fun i =>
    (List.range ws.w_kernel).map fun j =>
      ((recenter i (ws.h_kernel / 2) ws.h_res, recenter j (ws.w_kernel / 2) ws.w_res),
        kernel (i * ws.w_kernel + j))

/-- Source stores of `circular_convolution` (lines 263-268): per-column
memcpy of source column i into rows [0,h_src) of real-channel column i. -/
def srcWritesCircular (ws : Workspace R) (src : ℕ → R) : List ((ℕ × ℕ) × R) :=
  (List.range ws.w_src).flatMap fun i =>
    (List.range ws.h_src).map fun r => ((r, i), src (r * ws.w_src + i))

/-- Kernel stores of `circular_convolution` (lines 275-297): the
four-quadrant wraparound placement.  Columns left of the kernel center go to
the rightmost buffer columns, columns at/right of center to the leftmost;
within each, top rows go to the bottom buffer rows and rows at/below center
to the top. -/
def kernelWritesCircular (ws : Workspace R) (kernel : ℕ → R) : List ((ℕ × ℕ) × R) :=
  ((List.range (ws.w_kernel / 2)).flatMap fun i =>
    ((List.range (ws.h_kernel / 2)).map fun r =>
      ((ws.h_res - ws.h_kernel / 2 + r, ws.w_res - ws.w_kernel / 2 + i),
        kernel (r * ws.w_kernel + i)))
    ++ ((List.range ((ws.h_kernel + 1) / 2)).map fun r =>
      ((r, ws.w_res - ws.w_kernel / 2 + i),
        kernel ((ws.h_kernel / 2 + r) * ws.w_kernel + i))))
  ++ ((List.range (ws.w_kernel - ws.w_kernel / 2)).flatMap fun t =>
    ((List.range (ws.h_kernel / 2)).map fun r =>
      ((ws.h_res - ws.h_kernel / 2 + r, t),
        kernel (r * ws.w_kernel + (ws.w_kernel / 2 + t))))
    ++ ((List.range ((ws.h_kernel + 1) / 2)).map fun r =>
      ((r, t), kernel ((ws.h_kernel / 2 + r) * ws.w_kernel + (ws.w_kernel / 2 + t)))))

/-- The wrapped source index of the periodic-extension loop of
`circular_convolution_optimal` (lines 371-382): a single conditional add or
subtract of the source dimension (not a full modulo), ℕ version. -/
def wrapSrcIdx (i off n : ℕ) : ℕ :=
  if i < off then i + n - off else if n ≤ i - off then i - off - n else i - off

/-- Periodic-extension stores of `circular_convolution_optimal` (lines
367-386): cell (i,j) of the (h_src+h_kernel)×(w_src+w_kernel) extended image
is read from the source at the wrapped index. -/
def extensionWrites (ws : Workspace R) (src : ℕ → R) : List ((ℕ × ℕ) × R) :=
  (List.range (ws.h_src + ws.h_kernel)).flatMap fun i =>
    (List.range (ws.w_src + ws.w_kernel)).map fun j =>
      ((i, j),
        src (wrapSrcIdx i ((ws.h_kernel + 1) / 2) ws.h_src * ws.w_src
          + wrapSrcIdx j ((ws.w_kernel + 1) / 2) ws.w_src))

/-! ## The four convolution routines and the dispatcher -/

/-- The result-extraction common to `linear_convolution`,
`linear_convolution_optimal` and `circular_convolution`: the real part of
rows [0,h_src), cols [0,w_src) of the final buffer is copied into the flat
`dst`; the rest of the `dst` allocation is untouched. -/
def extractDst (ws : Workspace R) (final : ℕ → ℕ → Cx R) (dst : ℕ → R) : ℕ → R :=
  fun idx => if idx < ws.h_src * ws.w_src
    then (final (idx / ws.w_src) (idx % ws.w_src)).re else dst idx

/-- `linear_convolution` (lines 95-171): zero the buffer, pack the source
into the real channel and the recentered wrapped kernel into the imaginary
channel, run the shared transform stage, extract rows [0,h_src) ×
cols [0,w_src). -/
def linear_convolution [Field R] (ws : Workspace R) (s : State R) : State R :=
  let buf : ℕ → ℕ → Cx R := fun i j =>
    ⟨applyWrites (srcWritesLinear ws s.src) (fun _ => 0) (i, j),
      applyWrites (kernelWritesLinear ws s.kernel) (fun _ => 0) (i, j)⟩
  let t := transformStage ws buf
  { s with fft := t.1, fft_copy := t.2, dst := extractDst ws t.2 s.dst }

/-- `linear_convolution_optimal` (lines 177-252): its body is line-for-line
identical to `linear_convolution` (only the workspace it is called with
differs, carrying the optimizer-enlarged working size). -/
def linear_convolution_optimal [Field R] (ws : Workspace R) (s : State R) : State R :=
  linear_convolution ws s

/-- `circular_convolution` (lines 258-347): source packed at its natural
position (per-column memcpy), kernel packed by the four-quadrant wraparound
split, then the shared transform stage and the same extraction region. -/
def circular_convolution [Field R] (ws : Workspace R) (s : State R) : State R :=
  let buf : ℕ → ℕ → Cx R := fun i j =>
    ⟨applyWrites (srcWritesCircular ws s.src) (fun _ => 0) (i, j),
      applyWrites (kernelWritesCircular ws s.kernel) (fun _ => 0) (i, j)⟩
  let t := transformStage ws buf
  { s with fft := t.1, fft_copy := t.2, dst := extractDst ws t.2 s.dst }

/-- `circular_convolution_optimal` (lines 353-455): a periodically extended
copy of the source is packed into the real channel, the kernel exactly as in
the linear modes; after the shared stage the result is extracted at row
offset ⌊(h_kernel+1)/2⌋ and column offset ⌊(w_kernel+1)/2⌋. -/
def circular_convolution_optimal [Field R] (ws : Workspace R) (s : State R) : State R :=
  let buf : ℕ → ℕ → Cx R := fun i j =>
    ⟨applyWrites (extensionWrites ws s.src) (fun _ => 0) (i, j),
      applyWrites (kernelWritesLinear ws s.kernel) (fun _ => 0) (i, j)⟩
  let t := transformStage ws buf
  let newDst : ℕ → R := fun idx =>
    if idx < ws.h_src * ws.w_src
      then (t.2 (idx / ws.w_src + (ws.h_kernel + 1) / 2)
        (idx % ws.w_src + (ws.w_kernel + 1) / 2)).re
      else s.dst idx
  { s with fft := t.1, fft_copy := t.2, dst := newDst }

/-- `convolve` (lines 457-485): dispatch on the workspace's stored mode
value.  The `default` branch of the C switch prints the list of valid modes
and falls through (`// TODO EXCEPTION`), returning without writing `dst` or
reporting an error value; the model returns the state unchanged there. -/
def convolve [Field R] (ws : Workspace R) (s : State R) : State R :=
  match ws.mode with
  | 0 => linear_convolution ws s
  | 1 => linear_convolution_optimal ws s
  | 2 => circular_convolution ws s
  | 3 => circular_convolution_optimal ws s
  | _ => s

/-! ## DFT theory for the external transform primitive

The wavetable root `ζ` of a length-`N` transform satisfies `DftRoot N ζ`:
it is an `N`-th root of unity on the unit circle (`cconj ζ · ζ = 1`) whose
nontrivial power sums vanish, and `N` is invertible in the scalar field.
`exp(-2πi/N)` satisfies this over ℝ; `⟨-1, 0⟩` over any field with `2 ≠ 0`
satisfies it for `N = 2`, `⟨0, -1⟩` for `N = 4`. -/

def DftRoot [Field R] (N : ℕ) (ζ : Cx R) : Prop :=
  ζ ^ N = 1 ∧ Cx.cconj ζ * ζ = 1 ∧ (N : R) ≠ 0 ∧
    ∀ k, k < N → k ≠ 0 → (∑ j ∈ Finset.range N, ζ ^ (j * k)) = 0

theorem DftRoot.npos [Field R] {N : ℕ} {ζ : Cx R} (h : DftRoot N ζ) : 0 < N := by
  rcases Nat.eq_zero_or_pos N with h0 | h0
  · exact absurd (by simp [h0]) h.2.2.1
  · exact h0

theorem cxpow_mod [Field R] {N : ℕ} {ζ : Cx R} (h1 : ζ ^ N = 1) (m : ℕ) :
    ζ ^ m = ζ ^ (m % N) := by
  conv_lhs => rw [← Nat.div_add_mod m N]
  rw [pow_add, pow_mul, h1, one_pow, one_mul]

theorem cxpow_congr [Field R] {N : ℕ} {ζ : Cx R} (h1 : ζ ^ N = 1) {m m' : ℕ}
    (h : m ≡ m' [MOD N]) : ζ ^ m = ζ ^ m' := by
  rw [cxpow_mod h1 m, cxpow_mod h1 m', h]

theorem cconj_eq_pow [Field R] {N : ℕ} {ζ : Cx R} (hN : 0 < N) (h1 : ζ ^ N = 1)
    (hc : Cx.cconj ζ * ζ = 1) : Cx.cconj ζ = ζ ^ (N - 1) := by
  have h2 : Cx.cconj ζ * ζ ^ N = ζ ^ (N - 1) := by
    obtain ⟨M, hM⟩ : ∃ M, N = M + 1 := ⟨N - 1, by omega⟩
    subst hM
    rw [pow_succ, ← mul_assoc, mul_comm (Cx.cconj ζ) (ζ ^ M), mul_assoc, hc, mul_one]
    simp
  calc Cx.cconj ζ = Cx.cconj ζ * ζ ^ N := by rw [h1, mul_one]
  _ = ζ ^ (N - 1) := h2

@[simp] theorem cx_natCast_re [Field R] (n : ℕ) : ((n : ℕ) : Cx R).re = (n : R) := by
  induction n with
  | zero => simp
  | succ m ih => push_cast; simp [ih]

@[simp] theorem cx_natCast_im [Field R] (n : ℕ) : ((n : ℕ) : Cx R).im = 0 := by
  induction n with
  | zero => simp
  | succ m ih => push_cast; simp [ih]

theorem cx_natCast_eq_ofR [Field R] (n : ℕ) : ((n : ℕ) : Cx R) = Cx.ofR (n : R) := by
  ext <;> simp [Cx.ofR]

/-- The geometric power sum of a `DftRoot` collapses to a scaled delta. -/
theorem dft_delta [Field R] {N : ℕ} {ζ : Cx R} (hr : DftRoot N ζ) (c : ℕ) :
    (∑ j ∈ Finset.range N, ζ ^ (j * c)) =
      if c % N = 0 then ((N : ℕ) : Cx R) else 0 := by
  have hN := hr.npos
  by_cases hc : c % N = 0
  · rw [if_pos hc]
    have : ∀ j ∈ Finset.range N, ζ ^ (j * c) = 1 := by
      intro j _
      rw [cxpow_mod hr.1 (j * c)]
      have : (j * c) % N = 0 := by
        rcases Nat.dvd_of_mod_eq_zero hc with ⟨t, ht⟩
        subst ht
        have h' : j * (N * t) = N * (j * t) := by ring
        rw [h', Nat.mul_mod_right]
      rw [this, pow_zero]
    rw [Finset.sum_congr rfl this]
    simp
  · rw [if_neg hc]
    have hlt : c % N < N := Nat.mod_lt c hN
    have hcongr : ∀ j ∈ Finset.range N, ζ ^ (j * c) = ζ ^ (j * (c % N)) := by
      intro j _
      exact cxpow_congr hr.1 (Nat.ModEq.mul_left j (Nat.mod_modEq c N).symm)
    rw [Finset.sum_congr rfl hcongr]
    exact hr.2.2.2 (c % N) hlt hc

/-- Inversion of the external 1-D transform pair on its length-`N` window. -/
theorem idft1_dft1 [Field R] {N : ℕ} {ζ : Cx R} (hr : DftRoot N ζ)
    (x : ℕ → Cx R) (k : ℕ) (hk : k < N) : idft1 ζ N (dft1 ζ N x) k = x k := by
  have hN := hr.npos
  unfold idft1 dft1
  have step1 : ∀ j ∈ Finset.range N,
      (∑ m ∈ Finset.range N, x m * ζ ^ (m * j)) * (ζ ^ (N - 1)) ^ (j * k)
        = ∑ m ∈ Finset.range N, x m * ζ ^ (m * j + (N - 1) * (j * k)) := by
    intro j _
    rw [Finset.sum_mul]
    refine Finset.sum_congr rfl fun m _ => ?_
    rw [← pow_mul, mul_assoc, ← pow_add]
  rw [Finset.sum_congr rfl step1, Finset.sum_comm]
  have step2 : ∀ m ∈ Finset.range N,
      (∑ j ∈ Finset.range N, x m * ζ ^ (m * j + (N - 1) * (j * k)))
        = x m * ∑ j ∈ Finset.range N, ζ ^ (j * (m + (N - 1) * k)) := by
    intro m _
    rw [Finset.mul_sum]
    refine Finset.sum_congr rfl fun j _ => ?_
    congr 1
    ring_nf
  rw [Finset.sum_congr rfl step2]
  have step3 : ∀ m ∈ Finset.range N,
      x m * (∑ j ∈ Finset.range N, ζ ^ (j * (m + (N - 1) * k)))
        = x m * (if m = k then ((N : ℕ) : Cx R) else 0) := by
    intro m hm
    rw [dft_delta hr]
    congr 1
    have hmN : m < N := Finset.mem_range.mp hm
    by_cases hmk : m = k
    · subst hmk
      rw [if_pos rfl, if_pos]
      have h1 : m + (N - 1) * m = N * m := by
        cases N with
        | zero => omega
        | succ n => simp [Nat.succ_sub_one]; ring
      rw [h1, Nat.mul_mod_right]
    · rw [if_neg hmk, if_neg]
      intro hdvd
      apply hmk
      have hd := Nat.dvd_of_mod_eq_zero hdvd
      have h1 : m + (N - 1) * k + k = m + N * k := by
        cases N with
        | zero => omega
        | succ n => simp [Nat.succ_sub_one]; ring
      have h2 : (m + N * k) % N = m % N := by
        rw [Nat.add_mul_mod_self_left]
      have h3 : (m + (N - 1) * k + k) % N = k % N := by
        rcases hd with ⟨t, ht⟩
        rw [ht, Nat.mul_add_mod]
      rw [h1] at h3
      rw [h2] at h3
      rw [Nat.mod_eq_of_lt hmN, Nat.mod_eq_of_lt hk] at h3
      exact h3
  rw [Finset.sum_congr rfl step3]
  have step4 : (∑ m ∈ Finset.range N,
      x m * (if m = k then ((N : ℕ) : Cx R) else 0)) = x k * ((N : ℕ) : Cx R) := by
    rw [Finset.sum_congr rfl (fun m _ => by rw [mul_ite, mul_zero])]
    rw [Finset.sum_ite_eq' (Finset.range N) k fun m => x m * ((N : ℕ) : Cx R)]
    rw [if_pos (Finset.mem_range.mpr hk)]
  rw [step4, cx_natCast_eq_ofR, ← mul_assoc, mul_comm (Cx.ofR (N : R)⁻¹) (x k), mul_assoc,
    Cx.ofR_mul, inv_mul_cancel₀ hr.2.2.1]
  have : Cx.ofR (1 : R) = (1 : Cx R) := by ext <;> simp [Cx.ofR]
  rw [this, mul_one]

/-! ## 2-D DFT: separability, shift reindexing, convolution theorem -/

/-- The 2-D DFT of the working buffer with column root `ζc` and line root
`ζr` (the composite effect of the per-line and per-column forward loops). -/
def dft2 [Field R] (ζc ζr : Cx R) (H W : ℕ) (f : ℕ → ℕ → Cx R) (i j : ℕ) : Cx R :=
  ∑ a ∈ Finset.range H, ∑ b ∈ Finset.range W, f a b * ζc ^ (a * i) * ζr ^ (b * j)

theorem forward_eq_dft2 [Field R] (ζc ζr : Cx R) (H W : ℕ) (b : ℕ → ℕ → Cx R)
    (i j : ℕ) :
    forward_columns ζc H (forward_lines ζr W b) i j = dft2 ζc ζr H W b i j := by
  unfold forward_columns forward_lines dft1 dft2
  refine Finset.sum_congr rfl fun a _ => ?_
  rw [Finset.sum_mul]
  refine Finset.sum_congr rfl fun c _ => ?_
  ring

theorem sum_range_shift {M : Type} [AddCommMonoid M] {N : ℕ} (f : ℕ → M) (m : ℕ)
    (hm : m < N) :
    (∑ n ∈ Finset.range N, f n) = ∑ t ∈ Finset.range N, f ((t + m) % N) := by
  have hN : 0 < N := by omega
  refine Finset.sum_nbij' (fun n => (n + (N - m)) % N) (fun t => (t + m) % N)
    (fun a ha => Finset.mem_range.mpr (Nat.mod_lt _ hN))
    (fun a ha => Finset.mem_range.mpr (Nat.mod_lt _ hN)) ?_ ?_ ?_
  · intro a ha
    show ((a + (N - m)) % N + m) % N = a
    rw [Nat.mod_add_mod]
    have h1 : a + (N - m) + m = a + N := by omega
    rw [h1, Nat.add_mod_right, Nat.mod_eq_of_lt (Finset.mem_range.mp ha)]
  · intro a ha
    show ((a + m) % N + (N - m)) % N = a
    rw [Nat.mod_add_mod]
    have h1 : a + m + (N - m) = a + N := by omega
    rw [h1, Nat.add_mod_right, Nat.mod_eq_of_lt (Finset.mem_range.mp ha)]
  · intro a ha
    show f a = f (((a + (N - m)) % N + m) % N)
    rw [Nat.mod_add_mod]
    have h1 : a + (N - m) + m = a + N := by omega
    rw [h1, Nat.add_mod_right, Nat.mod_eq_of_lt (Finset.mem_range.mp ha)]

theorem shift_cancel {N : ℕ} {a t : ℕ} (ha : a < N) (ht : t < N) :
    ((t + a) % N + N - a) % N = t := by
  have h0 : (t + a) % N + N - a = (t + a) % N + (N - a) := by omega
  rw [h0, Nat.mod_add_mod]
  have h1 : t + a + (N - a) = t + N := by omega
  rw [h1, Nat.add_mod_right, Nat.mod_eq_of_lt ht]

/-- Reference 2-D circular convolution on the H×W working grid. -/
def circ2 [Field R] (H W : ℕ) (f g : ℕ → ℕ → Cx R) : ℕ → ℕ → Cx R := fun x y =>
  ∑ a ∈ Finset.range H, ∑ b ∈ Finset.range W,
    f a b * g ((x + H - a) % H) ((y + W - b) % W)

/-- Separability: the 2-D DFT is the column 1-D DFT of the line 1-D DFTs. -/
theorem dft2_sep [Field R] (ζc ζr : Cx R) (H W : ℕ) (f : ℕ → ℕ → Cx R) (i j : ℕ) :
    dft2 ζc ζr H W f i j = dft1 ζc H (fun a => dft1 ζr W (f a) j) i := by
  unfold dft1 dft2
  refine Finset.sum_congr rfl fun a _ => ?_
  rw [Finset.sum_mul]
  refine Finset.sum_congr rfl fun b _ => ?_
  ring

theorem dft1_sum {ι : Type} [Field R] (ζ : Cx R) (N : ℕ) (s : Finset ι)
    (F : ι → ℕ → Cx R) (k : ℕ) :
    dft1 ζ N (fun n => ∑ p ∈ s, F p n) k = ∑ p ∈ s, dft1 ζ N (F p) k := by
  unfold dft1
  rw [Finset.sum_comm]
  refine Finset.sum_congr rfl fun n _ => ?_
  rw [Finset.sum_mul]

/-- Discrete convolution theorem in one dimension. -/
theorem dft1_conv [Field R] {N : ℕ} {ζ : Cx R} (hr : DftRoot N ζ) (u v : ℕ → Cx R)
    (k : ℕ) :
    dft1 ζ N (fun n => ∑ m ∈ Finset.range N, u m * v ((n + N - m) % N)) k
      = dft1 ζ N u k * dft1 ζ N v k := by
  unfold dft1
  have step1 : (∑ n ∈ Finset.range N,
        (∑ m ∈ Finset.range N, u m * v ((n + N - m) % N)) * ζ ^ (n * k))
      = ∑ m ∈ Finset.range N, ∑ n ∈ Finset.range N,
        u m * v ((n + N - m) % N) * ζ ^ (n * k) := by
    rw [Finset.sum_comm]
    refine Finset.sum_congr rfl fun n _ => ?_
    rw [Finset.sum_mul]
  rw [step1]
  have step2 : ∀ m ∈ Finset.range N,
      (∑ n ∈ Finset.range N, u m * v ((n + N - m) % N) * ζ ^ (n * k))
        = u m * ζ ^ (m * k) * ∑ t ∈ Finset.range N, v t * ζ ^ (t * k) := by
    intro m hm
    have hmN : m < N := Finset.mem_range.mp hm
    rw [sum_range_shift (fun n => u m * v ((n + N - m) % N) * ζ ^ (n * k)) m hmN]
    have step2a : ∀ t ∈ Finset.range N,
        u m * v (((t + m) % N + N - m) % N) * ζ ^ ((t + m) % N * k)
          = u m * ζ ^ (m * k) * (v t * ζ ^ (t * k)) := by
      intro t ht
      have htN : t < N := Finset.mem_range.mp ht
      rw [shift_cancel hmN htN]
      have hpow : ζ ^ ((t + m) % N * k) = ζ ^ (t * k) * ζ ^ (m * k) := by
        rw [← pow_add]
        refine cxpow_congr hr.1 ?_
        calc (t + m) % N * k ≡ (t + m) * k [MOD N] :=
          Nat.ModEq.mul_right k (Nat.mod_modEq (t + m) N)
        _ = t * k + m * k := by ring
      rw [hpow]
      ring
    rw [Finset.sum_congr rfl step2a, ← Finset.mul_sum]
  rw [Finset.sum_congr rfl step2, ← Finset.sum_mul]

/-- Discrete convolution theorem on the working grid. -/
theorem dft2_circ2 [Field R] {H W : ℕ} {ζc ζr : Cx R} (hc : DftRoot H ζc)
    (hw : DftRoot W ζr) (f g : ℕ → ℕ → Cx R) (i j : ℕ) :
    dft2 ζc ζr H W (circ2 H W f g) i j
      = dft2 ζc ζr H W f i j * dft2 ζc ζr H W g i j := by
  rw [dft2_sep, dft2_sep, dft2_sep]
  have inner : ∀ a : ℕ, dft1 ζr W (circ2 H W f g a) j
      = ∑ p ∈ Finset.range H,
          dft1 ζr W (f p) j * dft1 ζr W (g ((a + H - p) % H)) j := by
    intro a
    have h1 : circ2 H W f g a = fun y => ∑ p ∈ Finset.range H,
        (∑ q ∈ Finset.range W, f p q * g ((a + H - p) % H) ((y + W - q) % W)) := by
      funext y
      rfl
    rw [h1, dft1_sum]
    refine Finset.sum_congr rfl fun p _ => ?_
    exact dft1_conv hw (f p) (g ((a + H - p) % H)) j
  have h2 : (fun a => dft1 ζr W (circ2 H W f g a) j)
      = fun a => ∑ p ∈ Finset.range H,
          (fun q => dft1 ζr W (f q) j) p
            * (fun q => dft1 ζr W (g q) j) ((a + H - p) % H) := by
    funext a
    exact inner a
  rw [h2]
  exact dft1_conv hc (fun q => dft1 ζr W (f q) j) (fun q => dft1 ζr W (g q) j) i

/-! ## Hermitian mirror symmetry and correctness of the spectral product -/

def cconjHom [Field R] : Cx R →+ Cx R where
  toFun := Cx.cconj
  map_zero' := by ext <;> simp [Cx.cconj]
  map_add' := fun a b => Cx.cconj_add a b

theorem cconj_sum [Field R] {ι : Type} (s : Finset ι) (f : ι → Cx R) :
    Cx.cconj (∑ p ∈ s, f p) = ∑ p ∈ s, Cx.cconj (f p) :=
  map_sum cconjHom f s

def reHom [Field R] : Cx R →+ R where
  toFun := Cx.re
  map_zero' := rfl
  map_add' := fun _ _ => rfl

def imHom [Field R] : Cx R →+ R where
  toFun := Cx.im
  map_zero' := rfl
  map_add' := fun _ _ => rfl

theorem re_sum [Field R] {ι : Type} (s : Finset ι) (f : ι → Cx R) :
    (∑ p ∈ s, f p).re = ∑ p ∈ s, (f p).re :=
  map_sum reHom f s

theorem im_sum [Field R] {ι : Type} (s : Finset ι) (f : ι → Cx R) :
    (∑ p ∈ s, f p).im = ∑ p ∈ s, (f p).im :=
  map_sum imHom f s

/-- The forward 2-D DFT of a real-channel buffer at the Hermitian-mirrored
index is the conjugate of its value at the plain index. -/
theorem dft2_mirror [Field R] {H W : ℕ} {ζc ζr : Cx R} (hc : DftRoot H ζc)
    (hw : DftRoot W ζr) (f : ℕ → ℕ → R) {i j : ℕ} (hi : i < H) (hj : j < W) :
    dft2 ζc ζr H W (fun a b => ⟨f a b, 0⟩) ((H - i) % H) ((W - j) % W)
      = Cx.cconj (dft2 ζc ζr H W (fun a b => ⟨f a b, 0⟩) i j) := by
  unfold dft2
  rw [cconj_sum]
  refine Finset.sum_congr rfl fun a ha => ?_
  rw [cconj_sum]
  refine Finset.sum_congr rfl fun b hb => ?_
  rw [Cx.cconj_mul, Cx.cconj_mul]
  have hfa : Cx.cconj ⟨f a b, 0⟩ = (⟨f a b, 0⟩ : Cx R) := by
    ext <;> simp [Cx.cconj]
  rw [hfa, Cx.cconj_pow, Cx.cconj_pow, cconj_eq_pow hc.npos hc.1 hc.2.1,
    cconj_eq_pow hw.npos hw.1 hw.2.1, ← pow_mul, ← pow_mul]
  congr 1
  · congr 1
    refine cxpow_congr hc.1 ?_
    have key : a * (H - i) ≡ (H - 1) * (a * i) [MOD H] := by
      rw [Nat.modEq_iff_dvd]
      push_cast [Nat.cast_sub (le_of_lt hi), Nat.cast_sub (Nat.one_le_iff_ne_zero.mpr
        (Nat.pos_iff_ne_zero.mp hc.npos))]
      refine ⟨(a : ℤ) * i - a, ?_⟩
      ring
    exact (Nat.ModEq.mul_left a (Nat.mod_modEq (H - i) H)).trans key
  · refine cxpow_congr hw.1 ?_
    have key : b * (W - j) ≡ (W - 1) * (b * j) [MOD W] := by
      rw [Nat.modEq_iff_dvd]
      push_cast [Nat.cast_sub (le_of_lt hj), Nat.cast_sub (Nat.one_le_iff_ne_zero.mpr
        (Nat.pos_iff_ne_zero.mp hw.npos))]
      refine ⟨(b : ℤ) * j - b, ?_⟩
      ring
    exact (Nat.ModEq.mul_left b (Nat.mod_modEq (W - j) W)).trans key

/-- Linearity: a packed buffer transforms to (source spectrum) + i · (kernel
spectrum). -/
theorem dft2_split [Field R] {ζc ζr : Cx R} {H W : ℕ} (fre fim : ℕ → ℕ → R)
    (i j : ℕ) :
    dft2 ζc ζr H W (fun a b => ⟨fre a b, fim a b⟩) i j
      = dft2 ζc ζr H W (fun a b => ⟨fre a b, 0⟩) i j
        + Cx.junit * dft2 ζc ζr H W (fun a b => ⟨fim a b, 0⟩) i j := by
  unfold dft2
  rw [Finset.mul_sum, ← Finset.sum_add_distrib]
  refine Finset.sum_congr rfl fun a _ => ?_
  rw [Finset.mul_sum, ← Finset.sum_add_distrib]
  refine Finset.sum_congr rfl fun b _ => ?_
  have hsplit : (⟨fre a b, fim a b⟩ : Cx R)
      = ⟨fre a b, 0⟩ + Cx.junit * ⟨fim a b, 0⟩ := by
    ext <;> simp [Cx.junit]
  show (⟨fre a b, fim a b⟩ : Cx R) * ζc ^ (a * i) * ζr ^ (b * j)
    = (⟨fre a b, 0⟩ : Cx R) * ζc ^ (a * i) * ζr ^ (b * j)
      + Cx.junit * ((⟨fim a b, 0⟩ : Cx R) * ζc ^ (a * i) * ζr ^ (b * j))
  rw [hsplit]
  ring

/-- The pointwise spectral-product stage recovers exactly the product of the
two packed real spectra from the single forward transform. -/
theorem spectral_product_eq [Field R] {H W : ℕ} {ζc ζr : Cx R} (hc : DftRoot H ζc)
    (hw : DftRoot W ζr) (h2 : (2 : R) ≠ 0) (fre fim : ℕ → ℕ → R)
    (Z : ℕ → ℕ → Cx R)
    (hZ : ∀ x y, Z x y = dft2 ζc ζr H W (fun a b => ⟨fre a b, fim a b⟩) x y)
    {i j : ℕ} (hi : i < H) (hj : j < W) :
    spectral_product H W Z i j
      = dft2 ζc ζr H W (fun a b => ⟨fre a b, 0⟩) i j
        * dft2 ζc ζr H W (fun a b => ⟨fim a b, 0⟩) i j := by
  have h4 : (4 : R) ≠ 0 := by
    have h44 : (4 : R) = 2 * 2 := by norm_num
    rw [h44]
    exact mul_ne_zero h2 h2
  unfold spectral_product
  rw [hZ i j, hZ ((H - i) % H) ((W - j) % W), dft2_split fre fim i j,
    dft2_split fre fim ((H - i) % H) ((W - j) % W), dft2_mirror hc hw fre hi hj,
    dft2_mirror hc hw fim hi hj]
  set A := dft2 ζc ζr H W (fun a b => ⟨fre a b, 0⟩) i j with hA
  set B := dft2 ζc ζr H W (fun a b => ⟨fim a b, 0⟩) i j with hB
  ext
  · simp [Cx.junit, Cx.cconj]
    field_simp
    ring
  · simp [Cx.junit, Cx.cconj]
    field_simp
    ring

/-- The inverse line pass commutes with the forward column pass (they act on
different axes). -/
theorem inverse_lines_forward_columns_comm [Field R] (ζr ζc : Cx R) (W H : ℕ)
    (g : ℕ → ℕ → Cx R) :
    inverse_lines ζr W (forward_columns ζc H g)
      = forward_columns ζc H (inverse_lines ζr W g) := by
  funext i k
  show idft1 ζr W (fun b => dft1 ζc H (fun a => g a b) i) k
    = dft1 ζc H (fun a => idft1 ζr W (g a) k) i
  unfold idft1 dft1
  rw [Finset.mul_sum]
  have hL : ∀ b ∈ Finset.range W,
      Cx.ofR (W : R)⁻¹ * ((∑ a ∈ Finset.range H, g a b * ζc ^ (a * i))
          * (ζr ^ (W - 1)) ^ (b * k))
        = ∑ a ∈ Finset.range H,
            Cx.ofR (W : R)⁻¹ * (g a b * (ζr ^ (W - 1)) ^ (b * k)) * ζc ^ (a * i) := by
    intro b _
    rw [Finset.sum_mul, Finset.mul_sum]
    exact Finset.sum_congr rfl fun a _ => by ring
  rw [Finset.sum_congr rfl hL, Finset.sum_comm]
  refine Finset.sum_congr rfl fun a _ => ?_
  show (∑ b ∈ Finset.range W,
      Cx.ofR (W : R)⁻¹ * (g a b * (ζr ^ (W - 1)) ^ (b * k)) * ζc ^ (a * i))
    = (Cx.ofR (W : R)⁻¹ * ∑ j ∈ Finset.range W, g a j * (ζr ^ (W - 1)) ^ (j * k))
        * ζc ^ (a * i)
  rw [Finset.mul_sum, Finset.sum_mul]

/-- Full forward-then-inverse round trip on the working window. -/
theorem transform_inverse_window [Field R] {H W : ℕ} {ζc ζr : Cx R}
    (hc : DftRoot H ζc) (hw : DftRoot W ζr) (z : ℕ → ℕ → Cx R) {x y : ℕ}
    (hx : x < H) (hy : y < W) :
    inverse_columns ζc H (inverse_lines ζr W
      (forward_columns ζc H (forward_lines ζr W z))) x y = z x y := by
  rw [inverse_lines_forward_columns_comm]
  have step : inverse_columns ζc H (forward_columns ζc H
      (inverse_lines ζr W (forward_lines ζr W z))) x y
      = inverse_lines ζr W (forward_lines ζr W z) x y :=
    idft1_dft1 hc (fun i => inverse_lines ζr W (forward_lines ζr W z) i y) x hx
  rw [step]
  exact idft1_dft1 hw (z x) y hy

/-- The inverse passes only read the working window of their input. -/
theorem inverse_window_congr [Field R] {H W : ℕ} (ζc ζr : Cx R)
    (P Q : ℕ → ℕ → Cx R) (hPQ : ∀ i < H, ∀ j < W, P i j = Q i j) (x y : ℕ) :
    inverse_columns ζc H (inverse_lines ζr W P) x y
      = inverse_columns ζc H (inverse_lines ζr W Q) x y := by
  show idft1 ζc H (fun i => idft1 ζr W (P i) y) x
    = idft1 ζc H (fun i => idft1 ζr W (Q i) y) x
  unfold idft1
  congr 1
  refine Finset.sum_congr rfl fun i hi => ?_
  have hrow : (Cx.ofR (W : R)⁻¹ * ∑ j ∈ Finset.range W, P i j * (ζr ^ (W - 1)) ^ (j * y))
      = Cx.ofR (W : R)⁻¹ * ∑ j ∈ Finset.range W, Q i j * (ζr ^ (W - 1)) ^ (j * y) := by
    congr 1
    refine Finset.sum_congr rfl fun j hj => ?_
    rw [hPQ i (Finset.mem_range.mp hi) j (Finset.mem_range.mp hj)]
  show (Cx.ofR (W : R)⁻¹ * ∑ j ∈ Finset.range W, P i j * (ζr ^ (W - 1)) ^ (j * y))
      * (ζc ^ (H - 1)) ^ (i * x)
    = (Cx.ofR (W : R)⁻¹ * ∑ j ∈ Finset.range W, Q i j * (ζr ^ (W - 1)) ^ (j * y))
      * (ζc ^ (H - 1)) ^ (i * x)
  rw [hrow]

/-- Closed form of the shared transform stage: on the working window it
computes the 2-D circular convolution of the two packed real channels. -/
theorem transformStage_closed [Field R] (ws : Workspace R)
    (hc : DftRoot ws.h_res ws.wv_column) (hw : DftRoot ws.w_res ws.wv_line)
    (h2 : (2 : R) ≠ 0) (fre fim : ℕ → ℕ → R) {x y : ℕ}
    (hx : x < ws.h_res) (hy : y < ws.w_res) :
    (transformStage ws (fun i j => ⟨fre i j, fim i j⟩)).2 x y
      = circ2 ws.h_res ws.w_res (fun a b => ⟨fre a b, 0⟩)
          (fun a b => ⟨fim a b, 0⟩) x y := by
  have key : ∀ i < ws.h_res, ∀ j < ws.w_res,
      spectral_product ws.h_res ws.w_res (forward_columns ws.wv_column ws.h_res
        (forward_lines ws.wv_line ws.w_res (fun a b => ⟨fre a b, fim a b⟩))) i j
      = forward_columns ws.wv_column ws.h_res (forward_lines ws.wv_line ws.w_res
          (circ2 ws.h_res ws.w_res (fun a b => ⟨fre a b, 0⟩)
            (fun a b => ⟨fim a b, 0⟩))) i j := by
    intro i hi j hj
    rw [forward_eq_dft2]
    rw [spectral_product_eq hc hw h2 fre fim _
      (fun a b => forward_eq_dft2 ws.wv_column ws.wv_line ws.h_res ws.w_res _ a b) hi hj]
    exact (dft2_circ2 hc hw _ _ i j).symm
  show inverse_columns ws.wv_column ws.h_res (inverse_lines ws.wv_line ws.w_res
      (spectral_product ws.h_res ws.w_res (forward_columns ws.wv_column ws.h_res
        (forward_lines ws.wv_line ws.w_res (fun i j => ⟨fre i j, fim i j⟩))))) x y = _
  rw [inverse_window_congr ws.wv_column ws.wv_line _ _ key x y]
  exact transform_inverse_window hc hw _ hx hy

/-- Scalar form: the circular convolution of two real channels is real, with
the real part the scalar circular convolution. -/
theorem circ2_real [Field R] (H W : ℕ) (f g : ℕ → ℕ → R) (x y : ℕ) :
    circ2 H W (fun a b => (⟨f a b, 0⟩ : Cx R)) (fun a b => ⟨g a b, 0⟩) x y
      = ⟨∑ a ∈ Finset.range H, ∑ b ∈ Finset.range W,
          f a b * g ((x + H - a) % H) ((y + W - b) % W), 0⟩ := by
  unfold circ2
  ext
  · rw [re_sum]
    refine Finset.sum_congr rfl fun a _ => ?_
    rw [re_sum]
    refine Finset.sum_congr rfl fun b _ => ?_
    simp
  · show (∑ a ∈ Finset.range H, ∑ b ∈ Finset.range W,
      (⟨f a b, 0⟩ : Cx R) * ⟨g ((x + H - a) % H) ((y + W - b) % W), 0⟩).im = 0
    rw [im_sum]
    refine Finset.sum_eq_zero fun a _ => ?_
    rw [im_sum]
    refine Finset.sum_eq_zero fun b _ => ?_
    simp

/-! ## Store-sequence reasoning -/

theorem applyWrites_not_mem (l : List ((ℕ × ℕ) × R)) (f : ℕ × ℕ → R) (c : ℕ × ℕ)
    (h : ∀ p ∈ l, p.1 ≠ c) : applyWrites l f c = f c := by
  induction l generalizing f with
  | nil => rfl
  | cons p t ih =>
    show applyWrites t (Function.update f p.1 p.2) c = f c
    rw [ih _ fun q hq => h q (List.mem_cons_of_mem p hq)]
    exact Function.update_noteq (Ne.symm (h p (List.mem_cons_self p t))) p.2 f

/-- If every store aimed at cell `c` carries value `v` and at least one does,
the final content of `c` is `v` (in particular the program-order of the
stores is irrelevant at such cells). -/
theorem applyWrites_unique (l : List ((ℕ × ℕ) × R)) (f : ℕ × ℕ → R) (c : ℕ × ℕ)
    (v : R) (hmem : ∃ p ∈ l, p.1 = c) (hval : ∀ p ∈ l, p.1 = c → p.2 = v) :
    applyWrites l f c = v := by
  induction l generalizing f with
  | nil => simp at hmem
  | cons p t ih =>
    show applyWrites t (Function.update f p.1 p.2) c = v
    by_cases ht : ∃ q ∈ t, q.1 = c
    · exact ih _ ht fun q hq => hval q (List.mem_cons_of_mem p hq)
    · have hp : p.1 = c := by
        rcases hmem with ⟨q, hq, hqc⟩
        rcases List.mem_cons.mp hq with hh | hh
        · rw [← hh]
          exact hqc
        · exact absurd ⟨q, hh, hqc⟩ ht
      have h1 : applyWrites t (Function.update f p.1 p.2) c
          = Function.update f p.1 p.2 c :=
        applyWrites_not_mem t _ c fun q hq hqc => ht ⟨q, hq, hqc⟩
      rw [h1, ← hp, Function.update_same]
      exact hval p (List.mem_cons_self p t) hp

/-! ## Flat-index bookkeeping of the extraction loops -/

theorem flat_div {c w : ℕ} (r : ℕ) (hc : c < w) : (r * w + c) / w = r := by
  have h1 : r * w + c = c + w * r := by ring
  rw [h1, Nat.add_mul_div_left c r (by omega), Nat.div_eq_of_lt hc, zero_add]

theorem flat_mod {c w : ℕ} (r : ℕ) (hc : c < w) : (r * w + c) % w = c := by
  have h1 : r * w + c = c + w * r := by ring
  rw [h1, Nat.add_mul_mod_self_left, Nat.mod_eq_of_lt hc]

theorem flat_lt {r c h w : ℕ} (hr : r < h) (hc : c < w) : r * w + c < h * w :=
  calc r * w + c < r * w + w := by omega
  _ = (r + 1) * w := by ring
  _ ≤ h * w := Nat.mul_le_mul_right w hr

/-! ## Layout characterizations of the packing loops -/

/-- Two naturals below `N` that agree modulo `N` (as integers) are equal. -/
theorem eq_of_int_modEq {x y N : ℕ} (hx : x < N) (hy : y < N)
    (h : (x : ℤ) ≡ (y : ℤ) [ZMOD N]) : x = y := by
  rcases (Int.ModEq.dvd h) with ⟨s, hs⟩
  have hxy : (x : ℤ) - y = N * (-s) := by
    have hns : (x : ℤ) - y = -((y : ℤ) - x) := by ring
    rw [hns, hs]
    ring
  rcases lt_trichotomy s 0 with hsn | hsz | hsp
  · have h1 : (-s : ℤ) ≥ 1 := by omega
    have h2 : (N : ℤ) * (-s) ≥ (N : ℤ) * 1 :=
      mul_le_mul_of_nonneg_left h1 (by positivity)
    have h3 : (x : ℤ) < N := by exact_mod_cast hx
    have h4 : (0 : ℤ) ≤ y := by positivity
    omega
  · subst hsz
    have : (x : ℤ) = y := by
      rw [← sub_eq_zero]
      rw [hxy]
      ring
    exact_mod_cast this
  · have h1 : (-s : ℤ) ≤ -1 := by omega
    have h2 : (N : ℤ) * (-s) ≤ (N : ℤ) * (-1) :=
      mul_le_mul_of_nonneg_left h1 (by positivity)
    have h3 : (y : ℤ) < N := by exact_mod_cast hy
    have h4 : (0 : ℤ) ≤ x := by positivity
    omega

/-- The recentered index is congruent to `i - half` modulo the working size. -/
theorem recenter_modEq (i half res : ℕ) (hhr : half ≤ res) :
    ((recenter i half res : ℕ) : ℤ) ≡ (i : ℤ) - half [ZMOD res] := by
  unfold recenter
  split
  · have hcast : ((i + res - half : ℕ) : ℤ) = (i : ℤ) + res - half := by
      have : half ≤ i + res := by omega
      push_cast [Nat.cast_sub this]
      ring
    rw [hcast]
    have heq : (i : ℤ) + res - half = ((i : ℤ) - half) + res * 1 := by ring
    rw [heq]
    show (((i : ℤ) - half) + (res : ℤ) * 1) % res = ((i : ℤ) - half) % res
    exact Int.add_mul_emod_self_left ((i : ℤ) - half) res 1
  · have hle : half ≤ i := by omega
    have hcast : ((i - half : ℕ) : ℤ) = (i : ℤ) - half := by
      push_cast [Nat.cast_sub hle]
      ring
    rw [hcast]

theorem recenter_lt {i half res : ℕ} (hhr : half ≤ res) (hi : i < half + res) :
    recenter i half res < res := by
  unfold recenter
  split <;> omega

/-- The store set every kernel-packing loop realizes: kernel cell (u,v) is
stored (into the imaginary channel) at the recentered wrapped buffer cell. -/
def KernelLayout (ws : Workspace R) (kernel : ℕ → R)
    (l : List ((ℕ × ℕ) × R)) : Prop :=
  (∀ p ∈ l, ∃ u v, u < ws.h_kernel ∧ v < ws.w_kernel ∧
      p = ((recenter u (ws.h_kernel / 2) ws.h_res,
        recenter v (ws.w_kernel / 2) ws.w_res), kernel (u * ws.w_kernel + v)))
  ∧ ∀ u v, u < ws.h_kernel → v < ws.w_kernel →
      ((recenter u (ws.h_kernel / 2) ws.h_res,
        recenter v (ws.w_kernel / 2) ws.w_res), kernel (u * ws.w_kernel + v)) ∈ l

/-- The store set of both source-packing loops: source cell (a,b) is stored
(into the real channel) at buffer cell (a,b). -/
def SrcLayout (ws : Workspace R) (src : ℕ → R)
    (l : List ((ℕ × ℕ) × R)) : Prop :=
  (∀ p ∈ l, ∃ a b, a < ws.h_src ∧ b < ws.w_src ∧
      p = ((a, b), src (a * ws.w_src + b)))
  ∧ ∀ a b, a < ws.h_src → b < ws.w_src → ((a, b), src (a * ws.w_src + b)) ∈ l

theorem srcWritesLinear_layout (ws : Workspace R) (src : ℕ → R) :
    SrcLayout ws src (srcWritesLinear ws src) := by
  constructor
  · intro p hp
    simp only [srcWritesLinear, List.mem_flatMap, List.mem_map, List.mem_range] at hp
    obtain ⟨a, ha, b, hb, rfl⟩ := hp
    exact ⟨a, b, ha, hb, rfl⟩
  · intro a b ha hb
    simp only [srcWritesLinear, List.mem_flatMap, List.mem_map, List.mem_range]
    exact ⟨a, ha, b, hb, rfl⟩

theorem srcWritesCircular_layout (ws : Workspace R) (src : ℕ → R) :
    SrcLayout ws src (srcWritesCircular ws src) := by
  constructor
  · intro p hp
    simp only [srcWritesCircular, List.mem_flatMap, List.mem_map, List.mem_range] at hp
    obtain ⟨b, hb, a, ha, rfl⟩ := hp
    exact ⟨a, b, ha, hb, rfl⟩
  · intro a b ha hb
    simp only [srcWritesCircular, List.mem_flatMap, List.mem_map, List.mem_range]
    exact ⟨b, hb, a, ha, rfl⟩

theorem kernelWritesLinear_layout (ws : Workspace R) (kernel : ℕ → R) :
    KernelLayout ws kernel (kernelWritesLinear ws kernel) := by
  constructor
  · intro p hp
    simp only [kernelWritesLinear, List.mem_flatMap, List.mem_map, List.mem_range] at hp
    obtain ⟨u, hu, v, hv, rfl⟩ := hp
    exact ⟨u, v, hu, hv, rfl⟩
  · intro u v hu hv
    simp only [kernelWritesLinear, List.mem_flatMap, List.mem_map, List.mem_range]
    exact ⟨u, hu, v, hv, rfl⟩

/-- The four-quadrant circular kernel packing realizes exactly the same
store set as the linear recentering loop. -/
theorem kernelWritesCircular_layout (ws : Workspace R) (kernel : ℕ → R)
    (hh : ws.h_kernel / 2 ≤ ws.h_res) (hw : ws.w_kernel / 2 ≤ ws.w_res) :
    KernelLayout ws kernel (kernelWritesCircular ws kernel) := by
  constructor
  · intro p hp
    simp only [kernelWritesCircular, List.mem_append, List.mem_flatMap, List.mem_map,
      List.mem_range] at hp
    rcases hp with (⟨i, hi, hp⟩ | ⟨t, ht, hp⟩) <;> rcases hp with (⟨r, hr, rfl⟩ | ⟨r, hr, rfl⟩)
    · refine ⟨r, i, by omega, by omega, ?_⟩
      have h1 : recenter r (ws.h_kernel / 2) ws.h_res = ws.h_res - ws.h_kernel / 2 + r := by
        unfold recenter
        split <;> omega
      have h2 : recenter i (ws.w_kernel / 2) ws.w_res = ws.w_res - ws.w_kernel / 2 + i := by
        unfold recenter
        split <;> omega
      rw [h1, h2]
    · refine ⟨ws.h_kernel / 2 + r, i, by omega, by omega, ?_⟩
      have h1 : recenter (ws.h_kernel / 2 + r) (ws.h_kernel / 2) ws.h_res = r := by
        unfold recenter
        split <;> omega
      have h2 : recenter i (ws.w_kernel / 2) ws.w_res = ws.w_res - ws.w_kernel / 2 + i := by
        unfold recenter
        split <;> omega
      rw [h1, h2]
    · refine ⟨r, ws.w_kernel / 2 + t, by omega, by omega, ?_⟩
      have h1 : recenter r (ws.h_kernel / 2) ws.h_res = ws.h_res - ws.h_kernel / 2 + r := by
        unfold recenter
        split <;> omega
      have h2 : recenter (ws.w_kernel / 2 + t) (ws.w_kernel / 2) ws.w_res = t := by
        unfold recenter
        split <;> omega
      rw [h1, h2]
    · refine ⟨ws.h_kernel / 2 + r, ws.w_kernel / 2 + t, by omega, by omega, ?_⟩
      have h1 : recenter (ws.h_kernel / 2 + r) (ws.h_kernel / 2) ws.h_res = r := by
        unfold recenter
        split <;> omega
      have h2 : recenter (ws.w_kernel / 2 + t) (ws.w_kernel / 2) ws.w_res = t := by
        unfold recenter
        split <;> omega
      rw [h1, h2]
  · intro u v hu hv
    simp only [kernelWritesCircular, List.mem_append, List.mem_flatMap, List.mem_map,
      List.mem_range]
    by_cases hub : u < ws.h_kernel / 2 <;> by_cases hvb : v < ws.w_kernel / 2
    · refine Or.inl ⟨v, hvb, Or.inl ⟨u, hub, ?_⟩⟩
      have h1 : recenter u (ws.h_kernel / 2) ws.h_res = ws.h_res - ws.h_kernel / 2 + u := by
        unfold recenter
        split <;> omega
      have h2 : recenter v (ws.w_kernel / 2) ws.w_res = ws.w_res - ws.w_kernel / 2 + v := by
        unfold recenter
        split <;> omega
      rw [h1, h2]
    · refine Or.inr ⟨v - ws.w_kernel / 2, by omega, Or.inl ⟨u, hub, ?_⟩⟩
      have h1 : recenter u (ws.h_kernel / 2) ws.h_res = ws.h_res - ws.h_kernel / 2 + u := by
        unfold recenter
        split <;> omega
      have h2 : recenter v (ws.w_kernel / 2) ws.w_res = v - ws.w_kernel / 2 := by
        unfold recenter
        split <;> omega
      have h3 : ws.w_kernel / 2 + (v - ws.w_kernel / 2) = v := by omega
      rw [h1, h2, h3]
    · refine Or.inl ⟨v, hvb, Or.inr ⟨u - ws.h_kernel / 2, by omega, ?_⟩⟩
      have h1 : recenter u (ws.h_kernel / 2) ws.h_res = u - ws.h_kernel / 2 := by
        unfold recenter
        split <;> omega
      have h2 : recenter v (ws.w_kernel / 2) ws.w_res = ws.w_res - ws.w_kernel / 2 + v := by
        unfold recenter
        split <;> omega
      have h3 : ws.h_kernel / 2 + (u - ws.h_kernel / 2) = u := by omega
      rw [h1, h2, h3]
    · refine Or.inr ⟨v - ws.w_kernel / 2, by omega, Or.inr ⟨u - ws.h_kernel / 2, by omega, ?_⟩⟩
      have h1 : recenter u (ws.h_kernel / 2) ws.h_res = u - ws.h_kernel / 2 := by
        unfold recenter
        split <;> omega
      have h2 : recenter v (ws.w_kernel / 2) ws.w_res = v - ws.w_kernel / 2 := by
        unfold recenter
        split <;> omega
      have h3 : ws.h_kernel / 2 + (u - ws.h_kernel / 2) = u := by omega
      have h4 : ws.w_kernel / 2 + (v - ws.w_kernel / 2) = v := by omega
      rw [h1, h2, h3, h4]

/-- Final content of the real channel after either source-packing loop. -/
theorem srcChannel_eq [Field R] (ws : Workspace R) (src : ℕ → R)
    (l : List ((ℕ × ℕ) × R)) (hl : SrcLayout ws src l) (a b : ℕ) :
    applyWrites l (fun _ => 0) (a, b)
      = if a < ws.h_src ∧ b < ws.w_src then src (a * ws.w_src + b) else 0 := by
  by_cases h : a < ws.h_src ∧ b < ws.w_src
  · rw [if_pos h]
    refine applyWrites_unique l _ _ _ ⟨_, hl.2 a b h.1 h.2, rfl⟩ ?_
    intro p hp hpc
    obtain ⟨a', b', ha', hb', rfl⟩ := hl.1 p hp
    have hab : a' = a ∧ b' = b := by
      have := hpc
      simp at this
      exact this
    rw [hab.1, hab.2]
  · rw [if_neg h]
    refine applyWrites_not_mem l _ _ ?_
    intro p hp hpc
    obtain ⟨a', b', ha', hb', rfl⟩ := hl.1 p hp
    simp at hpc
    exact h (by omega)

/-- Final content of the imaginary channel at a cell with a unique kernel
writer. -/
theorem kernelChannel_unique [Field R] (ws : Workspace R) (kernel : ℕ → R)
    (l : List ((ℕ × ℕ) × R)) (hl : KernelLayout ws kernel l) (m n u v : ℕ)
    (hu : u < ws.h_kernel) (hv : v < ws.w_kernel)
    (hm : recenter u (ws.h_kernel / 2) ws.h_res = m)
    (hn : recenter v (ws.w_kernel / 2) ws.w_res = n)
    (huq : ∀ u', u' < ws.h_kernel → recenter u' (ws.h_kernel / 2) ws.h_res = m → u' = u)
    (hvq : ∀ v', v' < ws.w_kernel → recenter v' (ws.w_kernel / 2) ws.w_res = n → v' = v) :
    applyWrites l (fun _ => 0) (m, n) = kernel (u * ws.w_kernel + v) := by
  refine applyWrites_unique l _ _ _ ⟨_, hl.2 u v hu hv, by rw [hm, hn]⟩ ?_
  intro p hp hpc
  obtain ⟨u', v', hu', hv', rfl⟩ := hl.1 p hp
  have hc : recenter u' (ws.h_kernel / 2) ws.h_res = m
      ∧ recenter v' (ws.w_kernel / 2) ws.w_res = n := by
    have := hpc
    simp at this
    exact this
  rw [huq u' hu' hc.1, hvq v' hv' hc.2]

/-- Final content of the imaginary channel at a cell no kernel store hits. -/
theorem kernelChannel_zero [Field R] (ws : Workspace R) (kernel : ℕ → R)
    (l : List ((ℕ × ℕ) × R)) (hl : KernelLayout ws kernel l) (m n : ℕ)
    (hno : ∀ u v, u < ws.h_kernel → v < ws.w_kernel →
      ¬(recenter u (ws.h_kernel / 2) ws.h_res = m
        ∧ recenter v (ws.w_kernel / 2) ws.w_res = n)) :
    applyWrites l (fun _ => 0) (m, n) = 0 := by
  refine applyWrites_not_mem l _ _ ?_
  intro p hp hpc
  obtain ⟨u', v', hu', hv', rfl⟩ := hl.1 p hp
  simp at hpc
  exact hno u' v' hu' hv' ⟨hpc.1, hpc.2⟩

/-- Final content of the real channel after the periodic-extension loop of
`circular_convolution_optimal`. -/
theorem extChannel_eq [Field R] (ws : Workspace R) (src : ℕ → R) (a b : ℕ) :
    applyWrites (extensionWrites ws src) (fun _ => 0) (a, b)
      = if a < ws.h_src + ws.h_kernel ∧ b < ws.w_src + ws.w_kernel
        then src (wrapSrcIdx a ((ws.h_kernel + 1) / 2) ws.h_src * ws.w_src
          + wrapSrcIdx b ((ws.w_kernel + 1) / 2) ws.w_src) else 0 := by
  by_cases h : a < ws.h_src + ws.h_kernel ∧ b < ws.w_src + ws.w_kernel
  · rw [if_pos h]
    refine applyWrites_unique _ _ _ _
      ⟨((a, b), src (wrapSrcIdx a ((ws.h_kernel + 1) / 2) ws.h_src * ws.w_src
        + wrapSrcIdx b ((ws.w_kernel + 1) / 2) ws.w_src)), ?_, rfl⟩ ?_
    · simp only [extensionWrites, List.mem_flatMap, List.mem_map, List.mem_range]
      exact ⟨a, h.1, b, h.2, rfl⟩
    · intro p hp hpc
      simp only [extensionWrites, List.mem_flatMap, List.mem_map, List.mem_range] at hp
      obtain ⟨i, hi, j, hj, rfl⟩ := hp
      have hij : i = a ∧ j = b := by
        have := hpc
        simp at this
        exact this
      rw [hij.1, hij.2]
  · rw [if_neg h]
    refine applyWrites_not_mem _ _ _ ?_
    intro p hp hpc
    simp only [extensionWrites, List.mem_flatMap, List.mem_map, List.mem_range] at hp
    obtain ⟨i, hi, j, hj, rfl⟩ := hp
    simp at hpc
    exact h (by omega)

/-! ## Reference convolutions (stated from the spec's wording) -/

/-- Zero-padded source lookup at integer indices. -/
def srcZ [Field R] (h w : ℕ) (src : ℕ → R) (i j : ℤ) : R :=
  if 0 ≤ i ∧ i < h ∧ 0 ≤ j ∧ j < w then src (i.toNat * w + j.toNat) else 0

/-- Direct spatial-domain 'same'-size linear convolution: kernel centered at
row ⌊hk/2⌋, column ⌊wk/2⌋, zero padding outside the source. -/
def sameLinearConv [Field R] (h w hk wk : ℕ) (src kernel : ℕ → R) (r c : ℕ) : R :=
  ∑ u ∈ Finset.range hk, ∑ v ∈ Finset.range wk,
    kernel (u * wk + v)
      * srcZ h w src ((r : ℤ) + (hk / 2 : ℕ) - u) ((c : ℤ) + (wk / 2 : ℕ) - v)

/-- Direct circular (periodic) convolution with the same centered kernel. -/
def circularConvDirect [Field R] (h w hk wk : ℕ) (src kernel : ℕ → R)
    (r c : ℕ) : R :=
  ∑ u ∈ Finset.range hk, ∑ v ∈ Finset.range wk,
    kernel (u * wk + v)
      * src ((((r : ℤ) + (hk / 2 : ℕ) - u) % (h : ℤ)).toNat * w
          + (((c : ℤ) + (wk / 2 : ℕ) - v) % (w : ℤ)).toNat)

/-! ## Which kernel store hits which extraction cell -/

/-- Linear working geometry: a kernel index whose recentered position equals
the wrapped extraction offset is uniquely the direct-convolution index, even
when the kernel overhangs the working size. -/
theorem lin_writer_eq {h hk H : ℕ} (hH : h + (hk + 1) / 2 ≤ H) {r a u' : ℕ}
    (hr : r < h) (ha : a < h) (hu' : u' < hk)
    (heq : recenter u' (hk / 2) H = (r + H - a) % H) :
    (u' : ℤ) = (r : ℤ) + (hk / 2 : ℕ) - a := by
  have hk2H : hk / 2 ≤ H := by omega
  have c1 := recenter_modEq u' (hk / 2) H hk2H
  rw [heq] at c1
  have c2 : (((r + H - a) % H : ℕ) : ℤ) = ((r : ℤ) + H - a) % H := by
    rw [Int.natCast_mod]
    congr 1
    have haH : a ≤ r + H := by omega
    push_cast [Nat.cast_sub haH]
    ring
  rw [c2] at c1
  have c3 : ((r : ℤ) + H - a) % (H : ℤ) = ((r : ℤ) - a) % H := by
    have hrw : (r : ℤ) + H - a = ((r : ℤ) - a) + H * 1 := by ring
    rw [hrw]
    exact Int.add_mul_emod_self_left ((r : ℤ) - a) H 1
  rw [Int.ModEq] at c1
  rw [c3, Int.emod_emod_of_dvd _ (dvd_refl (H : ℤ))] at c1
  have c4 : ((r : ℤ) - a) ≡ ((u' : ℤ) - (hk / 2 : ℕ)) [ZMOD H] := c1
  obtain ⟨s, hs⟩ := Int.ModEq.dvd c4
  have f1 : (u' : ℤ) < hk := by exact_mod_cast hu'
  have f2 : (r : ℤ) < h := by exact_mod_cast hr
  have f3 : (a : ℤ) < h := by exact_mod_cast ha
  have f4 : (0 : ℤ) ≤ u' := by positivity
  have f5 : (0 : ℤ) ≤ r := by positivity
  have f6 : (0 : ℤ) ≤ a := by positivity
  have f7 : (h : ℤ) + ((hk + 1) / 2 : ℕ) ≤ H := by exact_mod_cast hH
  have e1 : (hk / 2 : ℕ) + ((hk + 1) / 2 : ℕ) = hk := by omega
  have f8 : ((hk / 2 : ℕ) : ℤ) + (((hk + 1) / 2 : ℕ) : ℤ) = (hk : ℤ) := by
    exact_mod_cast e1
  have f9 : ((hk / 2 : ℕ) : ℤ) ≤ (((hk + 1) / 2 : ℕ) : ℤ) := by
    have : (hk / 2 : ℕ) ≤ (hk + 1) / 2 := by omega
    exact_mod_cast this
  rcases lt_trichotomy s 0 with hsn | hsz | hsp
  · have g1 : s ≤ -1 := by omega
    have g2 : (H : ℤ) * s ≤ (H : ℤ) * (-1) := by
      refine mul_le_mul_of_nonneg_left g1 (by positivity)
    rw [← hs] at g2
    linarith
  · subst hsz
    rw [mul_zero, sub_eq_zero] at hs
    linarith
  · have g1 : 1 ≤ s := by omega
    have g2 : (H : ℤ) * 1 ≤ (H : ℤ) * s := by
      refine mul_le_mul_of_nonneg_left g1 (by positivity)
    rw [← hs] at g2
    linarith

/-- Circular-optimal working geometry: a kernel index whose recentered
position equals the interior extraction offset is uniquely determined. -/
theorem circopt_writer_eq {h hk H : ℕ} (hH : h + hk ≤ H) {r a u' : ℕ}
    (hr : r < h) (ha : a < h + hk) (hu' : u' < hk)
    (heq : recenter u' (hk / 2) H = (r + (hk + 1) / 2 + H - a) % H) :
    (u' : ℤ) = (r : ℤ) + hk - a := by
  have hk2H : hk / 2 ≤ H := by omega
  have c1 := recenter_modEq u' (hk / 2) H hk2H
  rw [heq] at c1
  have c2 : (((r + (hk + 1) / 2 + H - a) % H : ℕ) : ℤ)
      = ((r : ℤ) + ((hk + 1) / 2 : ℕ) + H - a) % H := by
    rw [Int.natCast_mod]
    congr 1
    have haH : a ≤ r + (hk + 1) / 2 + H := by omega
    push_cast [Nat.cast_sub haH]
    ring
  rw [c2] at c1
  have c3 : ((r : ℤ) + ((hk + 1) / 2 : ℕ) + H - a) % (H : ℤ)
      = ((r : ℤ) + ((hk + 1) / 2 : ℕ) - a) % H := by
    have hrw : (r : ℤ) + ((hk + 1) / 2 : ℕ) + H - a
        = ((r : ℤ) + ((hk + 1) / 2 : ℕ) - a) + H * 1 := by ring
    rw [hrw]
    exact Int.add_mul_emod_self_left _ H 1
  rw [Int.ModEq] at c1
  rw [c3, Int.emod_emod_of_dvd _ (dvd_refl (H : ℤ))] at c1
  have c4 : ((r : ℤ) + ((hk + 1) / 2 : ℕ) - a) ≡ ((u' : ℤ) - (hk / 2 : ℕ)) [ZMOD H] := c1
  obtain ⟨s, hs⟩ := Int.ModEq.dvd c4
  have f1 : (u' : ℤ) < hk := by exact_mod_cast hu'
  have f2 : (r : ℤ) < h := by exact_mod_cast hr
  have f3 : (a : ℤ) < (h : ℤ) + hk := by exact_mod_cast ha
  have f4 : (0 : ℤ) ≤ u' := by positivity
  have f5 : (0 : ℤ) ≤ r := by positivity
  have f6 : (0 : ℤ) ≤ a := by positivity
  have f7 : (h : ℤ) + hk ≤ H := by exact_mod_cast hH
  have e1 : (hk / 2 : ℕ) + ((hk + 1) / 2 : ℕ) = hk := by omega
  have f8 : ((hk / 2 : ℕ) : ℤ) + (((hk + 1) / 2 : ℕ) : ℤ) = (hk : ℤ) := by
    exact_mod_cast e1
  rcases lt_trichotomy s 0 with hsn | hsz | hsp
  · have g1 : s ≤ -1 := by omega
    have g2 : (H : ℤ) * s ≤ (H : ℤ) * (-1) := by
      refine mul_le_mul_of_nonneg_left g1 (by positivity)
    rw [← hs] at g2
    linarith
  · subst hsz
    rw [mul_zero, sub_eq_zero] at hs
    linarith
  · have g1 : 1 ≤ s := by omega
    have g2 : (H : ℤ) * 1 ≤ (H : ℤ) * s := by
      refine mul_le_mul_of_nonneg_left g1 (by positivity)
    rw [← hs] at g2
    linarith

theorem wrap_mod_cast {H x a : ℕ} (ha : a ≤ x + H) :
    (((x + H - a) % H : ℕ) : ℤ) ≡ (x : ℤ) - a [ZMOD H] := by
  have c2 : (((x + H - a) % H : ℕ) : ℤ) = ((x : ℤ) + H - a) % H := by
    rw [Int.natCast_mod]
    congr 1
    push_cast [Nat.cast_sub ha]
    ring
  rw [c2]
  show ((x : ℤ) + H - a) % H % H = ((x : ℤ) - a) % H
  rw [Int.emod_emod_of_dvd _ (dvd_refl (H : ℤ))]
  have hrw : (x : ℤ) + H - a = ((x : ℤ) - a) + H * 1 := by ring
  rw [hrw]
  exact Int.add_mul_emod_self_left ((x : ℤ) - a) H 1

/-- Content of the packed kernel channel at the cells the linear extraction
reads: the unique direct-convolution contributor, or zero. -/
theorem lin_kernel_cell [Field R] (ws : Workspace R) (kernel : ℕ → R)
    (l : List ((ℕ × ℕ) × R)) (hl : KernelLayout ws kernel l)
    (hH : ws.h_src + (ws.h_kernel + 1) / 2 ≤ ws.h_res)
    (hW : ws.w_src + (ws.w_kernel + 1) / 2 ≤ ws.w_res)
    {r a c b : ℕ} (hr : r < ws.h_src) (ha : a < ws.h_src)
    (hcc : c < ws.w_src) (hb : b < ws.w_src) :
    applyWrites l (fun _ => 0)
      ((r + ws.h_res - a) % ws.h_res, (c + ws.w_res - b) % ws.w_res)
      = if a ≤ r + ws.h_kernel / 2 ∧ r + ws.h_kernel / 2 < a + ws.h_kernel
          ∧ b ≤ c + ws.w_kernel / 2 ∧ c + ws.w_kernel / 2 < b + ws.w_kernel
        then kernel ((r + ws.h_kernel / 2 - a) * ws.w_kernel
          + (c + ws.w_kernel / 2 - b))
        else 0 := by
  have hHpos : 0 < ws.h_res := by omega
  have hWpos : 0 < ws.w_res := by omega
  by_cases hcond : a ≤ r + ws.h_kernel / 2 ∧ r + ws.h_kernel / 2 < a + ws.h_kernel
      ∧ b ≤ c + ws.w_kernel / 2 ∧ c + ws.w_kernel / 2 < b + ws.w_kernel
  · rw [if_pos hcond]
    obtain ⟨hc1, hc2, hc3, hc4⟩ := hcond
    have hu : r + ws.h_kernel / 2 - a < ws.h_kernel := by omega
    have hv : c + ws.w_kernel / 2 - b < ws.w_kernel := by omega
    have hmrow : recenter (r + ws.h_kernel / 2 - a) (ws.h_kernel / 2) ws.h_res
        = (r + ws.h_res - a) % ws.h_res := by
      refine eq_of_int_modEq (recenter_lt (by omega) (by omega))
        (Nat.mod_lt _ hHpos) ?_
      have m1 := recenter_modEq (r + ws.h_kernel / 2 - a) (ws.h_kernel / 2)
        ws.h_res (by omega)
      have m2 : ((r + ws.h_kernel / 2 - a : ℕ) : ℤ) - ((ws.h_kernel / 2 : ℕ) : ℤ)
          = (r : ℤ) - a := by omega
      rw [m2] at m1
      have m3 := wrap_mod_cast (H := ws.h_res) (x := r) (a := a) (by omega)
      exact m1.trans m3.symm
    have hmcol : recenter (c + ws.w_kernel / 2 - b) (ws.w_kernel / 2) ws.w_res
        = (c + ws.w_res - b) % ws.w_res := by
      refine eq_of_int_modEq (recenter_lt (by omega) (by omega))
        (Nat.mod_lt _ hWpos) ?_
      have m1 := recenter_modEq (c + ws.w_kernel / 2 - b) (ws.w_kernel / 2)
        ws.w_res (by omega)
      have m2 : ((c + ws.w_kernel / 2 - b : ℕ) : ℤ) - ((ws.w_kernel / 2 : ℕ) : ℤ)
          = (c : ℤ) - b := by omega
      rw [m2] at m1
      have m3 := wrap_mod_cast (H := ws.w_res) (x := c) (a := b) (by omega)
      exact m1.trans m3.symm
    refine kernelChannel_unique ws kernel l hl _ _ _ _ hu hv hmrow hmcol ?_ ?_
    · intro u' hu' heq
      have e1 := lin_writer_eq hH hr ha hu' heq
      omega
    · intro v' hv' heq
      have e2 := lin_writer_eq hW hcc hb hv' heq
      omega
  · rw [if_neg hcond]
    refine kernelChannel_zero ws kernel l hl _ _ ?_
    intro u' v' hu' hv' hpair
    have e1 := lin_writer_eq hH hr ha hu' hpair.1
    have e2 := lin_writer_eq hW hcc hb hv' hpair.2
    exact hcond (by omega)

/-- Content of the packed kernel channel at the interior cells the
circular-optimal extraction reads. -/
theorem circopt_kernel_cell [Field R] (ws : Workspace R) (kernel : ℕ → R)
    (l : List ((ℕ × ℕ) × R)) (hl : KernelLayout ws kernel l)
    (hH : ws.h_src + ws.h_kernel ≤ ws.h_res)
    (hW : ws.w_src + ws.w_kernel ≤ ws.w_res)
    {r a c b : ℕ} (hr : r < ws.h_src) (ha : a < ws.h_src + ws.h_kernel)
    (hcc : c < ws.w_src) (hb : b < ws.w_src + ws.w_kernel) :
    applyWrites l (fun _ => 0)
      ((r + (ws.h_kernel + 1) / 2 + ws.h_res - a) % ws.h_res,
        (c + (ws.w_kernel + 1) / 2 + ws.w_res - b) % ws.w_res)
      = if r < a ∧ a ≤ r + ws.h_kernel ∧ c < b ∧ b ≤ c + ws.w_kernel
        then kernel ((r + ws.h_kernel - a) * ws.w_kernel + (c + ws.w_kernel - b))
        else 0 := by
  have hHpos : 0 < ws.h_res := by omega
  have hWpos : 0 < ws.w_res := by omega
  by_cases hcond : r < a ∧ a ≤ r + ws.h_kernel ∧ c < b ∧ b ≤ c + ws.w_kernel
  · rw [if_pos hcond]
    obtain ⟨hc1, hc2, hc3, hc4⟩ := hcond
    have hu : r + ws.h_kernel - a < ws.h_kernel := by omega
    have hv : c + ws.w_kernel - b < ws.w_kernel := by omega
    have hmrow : recenter (r + ws.h_kernel - a) (ws.h_kernel / 2) ws.h_res
        = (r + (ws.h_kernel + 1) / 2 + ws.h_res - a) % ws.h_res := by
      refine eq_of_int_modEq (recenter_lt (by omega) (by omega))
        (Nat.mod_lt _ hHpos) ?_
      have m1 := recenter_modEq (r + ws.h_kernel - a) (ws.h_kernel / 2)
        ws.h_res (by omega)
      have m2 : ((r + ws.h_kernel - a : ℕ) : ℤ) - ((ws.h_kernel / 2 : ℕ) : ℤ)
          = ((r + (ws.h_kernel + 1) / 2 : ℕ) : ℤ) - a := by omega
      rw [m2] at m1
      have m3 := wrap_mod_cast (H := ws.h_res) (x := r + (ws.h_kernel + 1) / 2)
        (a := a) (by omega)
      have m4 : (((r + (ws.h_kernel + 1) / 2 + ws.h_res - a) % ws.h_res : ℕ) : ℤ)
          ≡ ((r + (ws.h_kernel + 1) / 2 : ℕ) : ℤ) - a [ZMOD ws.h_res] := by
        have : ((r + (ws.h_kernel + 1) / 2 : ℕ) : ℤ) = (r : ℤ) + ((ws.h_kernel + 1) / 2 : ℕ) := by
          push_cast
          ring
        rw [this]
        have := wrap_mod_cast (H := ws.h_res) (x := r + (ws.h_kernel + 1) / 2)
          (a := a) (by omega)
        calc (((r + (ws.h_kernel + 1) / 2 + ws.h_res - a) % ws.h_res : ℕ) : ℤ)
            ≡ ((r + (ws.h_kernel + 1) / 2 : ℕ) : ℤ) - a [ZMOD ws.h_res] := this
        _ = (r : ℤ) + ((ws.h_kernel + 1) / 2 : ℕ) - a := by push_cast; ring
      exact m1.trans m4.symm
    have hmcol : recenter (c + ws.w_kernel - b) (ws.w_kernel / 2) ws.w_res
        = (c + (ws.w_kernel + 1) / 2 + ws.w_res - b) % ws.w_res := by
      refine eq_of_int_modEq (recenter_lt (by omega) (by omega))
        (Nat.mod_lt _ hWpos) ?_
      have m1 := recenter_modEq (c + ws.w_kernel - b) (ws.w_kernel / 2)
        ws.w_res (by omega)
      have m2 : ((c + ws.w_kernel - b : ℕ) : ℤ) - ((ws.w_kernel / 2 : ℕ) : ℤ)
          = ((c + (ws.w_kernel + 1) / 2 : ℕ) : ℤ) - b := by omega
      rw [m2] at m1
      have m4 := wrap_mod_cast (H := ws.w_res) (x := c + (ws.w_kernel + 1) / 2)
        (a := b) (by omega)
      exact m1.trans m4.symm
    refine kernelChannel_unique ws kernel l hl _ _ _ _ hu hv hmrow hmcol ?_ ?_
    · intro u' hu' heq
      have e1 := circopt_writer_eq hH hr ha hu' heq
      omega
    · intro v' hv' heq
      have e2 := circopt_writer_eq hW hcc hb hv' heq
      omega
  · rw [if_neg hcond]
    refine kernelChannel_zero ws kernel l hl _ _ ?_
    intro u' v' hu' hv' hpair
    have e1 := circopt_writer_eq hH hr ha hu' hpair.1
    have e2 := circopt_writer_eq hW hcc hb hv' hpair.2
    exact hcond (by omega)

/-- The scalar circular convolution of the two packed channels, evaluated on
the extraction window of the linear-layout modes, is the direct 'same'-size
linear convolution. -/
theorem linear_sum_ident [Field R] (ws : Workspace R) (src kernel : ℕ → R)
    (lsrc lker : List ((ℕ × ℕ) × R))
    (hsl : SrcLayout ws src lsrc) (hkl : KernelLayout ws kernel lker)
    (hH : ws.h_src + (ws.h_kernel + 1) / 2 ≤ ws.h_res)
    (hW : ws.w_src + (ws.w_kernel + 1) / 2 ≤ ws.w_res)
    {r c : ℕ} (hr : r < ws.h_src) (hc : c < ws.w_src) :
    (∑ a ∈ Finset.range ws.h_res, ∑ b ∈ Finset.range ws.w_res,
      applyWrites lsrc (fun _ => 0) (a, b)
        * applyWrites lker (fun _ => 0)
            ((r + ws.h_res - a) % ws.h_res, (c + ws.w_res - b) % ws.w_res))
      = sameLinearConv ws.h_src ws.w_src ws.h_kernel ws.w_kernel src kernel r c := by
  have hz2 : ∀ a : ℕ, ∀ b ∈ Finset.range ws.w_res, b ∉ Finset.range ws.w_src →
      applyWrites lsrc (fun _ => 0) (a, b)
        * applyWrites lker (fun _ => 0)
            ((r + ws.h_res - a) % ws.h_res, (c + ws.w_res - b) % ws.w_res) = 0 := by
    intro a b _ hbn
    rw [srcChannel_eq ws src lsrc hsl a b, if_neg, zero_mul]
    simp only [Finset.mem_range] at hbn
    omega
  have hz1 : ∀ a ∈ Finset.range ws.h_res, a ∉ Finset.range ws.h_src →
      (∑ b ∈ Finset.range ws.w_res,
        applyWrites lsrc (fun _ => 0) (a, b)
          * applyWrites lker (fun _ => 0)
              ((r + ws.h_res - a) % ws.h_res, (c + ws.w_res - b) % ws.w_res)) = 0 := by
    intro a _ han
    refine Finset.sum_eq_zero fun b _ => ?_
    rw [srcChannel_eq ws src lsrc hsl a b, if_neg, zero_mul]
    simp only [Finset.mem_range] at han
    omega
  calc (∑ a ∈ Finset.range ws.h_res, ∑ b ∈ Finset.range ws.w_res,
      applyWrites lsrc (fun _ => 0) (a, b)
        * applyWrites lker (fun _ => 0)
            ((r + ws.h_res - a) % ws.h_res, (c + ws.w_res - b) % ws.w_res))
      = ∑ a ∈ Finset.range ws.h_src, ∑ b ∈ Finset.range ws.w_res,
          applyWrites lsrc (fun _ => 0) (a, b)
            * applyWrites lker (fun _ => 0)
                ((r + ws.h_res - a) % ws.h_res, (c + ws.w_res - b) % ws.w_res) :=
    (Finset.sum_subset (Finset.range_subset.mpr (by omega)) hz1).symm
  _ = ∑ a ∈ Finset.range ws.h_src, ∑ b ∈ Finset.range ws.w_src,
        applyWrites lsrc (fun _ => 0) (a, b)
          * applyWrites lker (fun _ => 0)
              ((r + ws.h_res - a) % ws.h_res, (c + ws.w_res - b) % ws.w_res) :=
    Finset.sum_congr rfl fun a _ =>
      (Finset.sum_subset (Finset.range_subset.mpr (by omega)) (hz2 a)).symm
  _ = ∑ a ∈ Finset.range ws.h_src, ∑ b ∈ Finset.range ws.w_src,
        src (a * ws.w_src + b)
          * (if a ≤ r + ws.h_kernel / 2 ∧ r + ws.h_kernel / 2 < a + ws.h_kernel
              ∧ b ≤ c + ws.w_kernel / 2 ∧ c + ws.w_kernel / 2 < b + ws.w_kernel
            then kernel ((r + ws.h_kernel / 2 - a) * ws.w_kernel
              + (c + ws.w_kernel / 2 - b))
            else 0) := by
    refine Finset.sum_congr rfl fun a ha => Finset.sum_congr rfl fun b hb => ?_
    rw [srcChannel_eq ws src lsrc hsl a b,
      if_pos ⟨Finset.mem_range.mp ha, Finset.mem_range.mp hb⟩,
      lin_kernel_cell ws kernel lker hkl hH hW hr (Finset.mem_range.mp ha)
        hc (Finset.mem_range.mp hb)]
  _ = ∑ p ∈ Finset.range ws.h_src ×ˢ Finset.range ws.w_src,
        src (p.1 * ws.w_src + p.2)
          * (if p.1 ≤ r + ws.h_kernel / 2 ∧ r + ws.h_kernel / 2 < p.1 + ws.h_kernel
              ∧ p.2 ≤ c + ws.w_kernel / 2 ∧ c + ws.w_kernel / 2 < p.2 + ws.w_kernel
            then kernel ((r + ws.h_kernel / 2 - p.1) * ws.w_kernel
              + (c + ws.w_kernel / 2 - p.2))
            else 0) :=
    (Finset.sum_product' (Finset.range ws.h_src) (Finset.range ws.w_src)
      (fun a b => src (a * ws.w_src + b)
        * (if a ≤ r + ws.h_kernel / 2 ∧ r + ws.h_kernel / 2 < a + ws.h_kernel
            ∧ b ≤ c + ws.w_kernel / 2 ∧ c + ws.w_kernel / 2 < b + ws.w_kernel
          then kernel ((r + ws.h_kernel / 2 - a) * ws.w_kernel
            + (c + ws.w_kernel / 2 - b))
          else 0))).symm
  _ = ∑ q ∈ Finset.range ws.h_kernel ×ˢ Finset.range ws.w_kernel,
        kernel (q.1 * ws.w_kernel + q.2)
          * srcZ ws.h_src ws.w_src src ((r : ℤ) + (ws.h_kernel / 2 : ℕ) - q.1)
              ((c : ℤ) + (ws.w_kernel / 2 : ℕ) - q.2) := by
    refine Finset.sum_bij_ne_zero
      (fun p h1 h2 => (r + ws.h_kernel / 2 - p.1, c + ws.w_kernel / 2 - p.2))
      ?_ ?_ ?_ ?_
    · intro p h1 h2
      have hmem := Finset.mem_product.mp h1
      have hp1 := Finset.mem_range.mp hmem.1
      have hp2 := Finset.mem_range.mp hmem.2
      have hcnd : p.1 ≤ r + ws.h_kernel / 2 ∧ r + ws.h_kernel / 2 < p.1 + ws.h_kernel
          ∧ p.2 ≤ c + ws.w_kernel / 2 ∧ c + ws.w_kernel / 2 < p.2 + ws.w_kernel := by
        by_contra hn
        exact h2 (by rw [if_neg hn, mul_zero])
      simp only [Finset.mem_product, Finset.mem_range]
      constructor <;> omega
    · intro p1 h11 h12 p2 h21 h22 heq
      have hcnd1 : p1.1 ≤ r + ws.h_kernel / 2 ∧ r + ws.h_kernel / 2 < p1.1 + ws.h_kernel
          ∧ p1.2 ≤ c + ws.w_kernel / 2 ∧ c + ws.w_kernel / 2 < p1.2 + ws.w_kernel := by
        by_contra hn
        exact h12 (by rw [if_neg hn, mul_zero])
      have hcnd2 : p2.1 ≤ r + ws.h_kernel / 2 ∧ r + ws.h_kernel / 2 < p2.1 + ws.h_kernel
          ∧ p2.2 ≤ c + ws.w_kernel / 2 ∧ c + ws.w_kernel / 2 < p2.2 + ws.w_kernel := by
        by_contra hn
        exact h22 (by rw [if_neg hn, mul_zero])
      have hq := Prod.mk.injEq _ _ _ _ ▸ heq
      have hq1 : r + ws.h_kernel / 2 - p1.1 = r + ws.h_kernel / 2 - p2.1 :=
        congrArg Prod.fst heq
      have hq2 : c + ws.w_kernel / 2 - p1.2 = c + ws.w_kernel / 2 - p2.2 :=
        congrArg Prod.snd heq
      refine Prod.ext ?_ ?_ <;> omega
    · intro q hq hgq
      have hqmem := Finset.mem_product.mp hq
      have hq1 := Finset.mem_range.mp hqmem.1
      have hq2 := Finset.mem_range.mp hqmem.2
      have hzcond : 0 ≤ (r : ℤ) + (ws.h_kernel / 2 : ℕ) - q.1
          ∧ (r : ℤ) + (ws.h_kernel / 2 : ℕ) - q.1 < ws.h_src
          ∧ 0 ≤ (c : ℤ) + (ws.w_kernel / 2 : ℕ) - q.2
          ∧ (c : ℤ) + (ws.w_kernel / 2 : ℕ) - q.2 < ws.w_src := by
        by_contra hn
        apply hgq
        show kernel (q.1 * ws.w_kernel + q.2)
          * srcZ ws.h_src ws.w_src src ((r : ℤ) + (ws.h_kernel / 2 : ℕ) - q.1)
              ((c : ℤ) + (ws.w_kernel / 2 : ℕ) - q.2) = 0
        unfold srcZ
        rw [if_neg hn, mul_zero]
      obtain ⟨z1, z2, z3, z4⟩ := hzcond
      have hval : src ((r + ws.h_kernel / 2 - q.1) * ws.w_src
            + (c + ws.w_kernel / 2 - q.2))
          * (if r + ws.h_kernel / 2 - q.1 ≤ r + ws.h_kernel / 2
              ∧ r + ws.h_kernel / 2 < (r + ws.h_kernel / 2 - q.1) + ws.h_kernel
              ∧ c + ws.w_kernel / 2 - q.2 ≤ c + ws.w_kernel / 2
              ∧ c + ws.w_kernel / 2 < (c + ws.w_kernel / 2 - q.2) + ws.w_kernel
            then kernel ((r + ws.h_kernel / 2 - (r + ws.h_kernel / 2 - q.1)) * ws.w_kernel
              + (c + ws.w_kernel / 2 - (c + ws.w_kernel / 2 - q.2)))
            else 0)
          = kernel (q.1 * ws.w_kernel + q.2)
            * srcZ ws.h_src ws.w_src src ((r : ℤ) + (ws.h_kernel / 2 : ℕ) - q.1)
                ((c : ℤ) + (ws.w_kernel / 2 : ℕ) - q.2) := by
        rw [if_pos (by omega)]
        have e1 : r + ws.h_kernel / 2 - (r + ws.h_kernel / 2 - q.1) = q.1 := by omega
        have e2 : c + ws.w_kernel / 2 - (c + ws.w_kernel / 2 - q.2) = q.2 := by omega
        rw [e1, e2]
        unfold srcZ
        rw [if_pos ⟨z1, z2, z3, z4⟩]
        have e3 : ((r : ℤ) + (ws.h_kernel / 2 : ℕ) - q.1).toNat
            = r + ws.h_kernel / 2 - q.1 := by omega
        have e4 : ((c : ℤ) + (ws.w_kernel / 2 : ℕ) - q.2).toNat
            = c + ws.w_kernel / 2 - q.2 := by omega
        rw [e3, e4]
        exact mul_comm _ _
      refine ⟨(r + ws.h_kernel / 2 - q.1, c + ws.w_kernel / 2 - q.2), ?_, ?_, ?_⟩
      · simp only [Finset.mem_product, Finset.mem_range]
        constructor <;> omega
      · show src ((r + ws.h_kernel / 2 - q.1) * ws.w_src + (c + ws.w_kernel / 2 - q.2))
          * (if r + ws.h_kernel / 2 - q.1 ≤ r + ws.h_kernel / 2
              ∧ r + ws.h_kernel / 2 < (r + ws.h_kernel / 2 - q.1) + ws.h_kernel
              ∧ c + ws.w_kernel / 2 - q.2 ≤ c + ws.w_kernel / 2
              ∧ c + ws.w_kernel / 2 < (c + ws.w_kernel / 2 - q.2) + ws.w_kernel
            then kernel ((r + ws.h_kernel / 2 - (r + ws.h_kernel / 2 - q.1)) * ws.w_kernel
              + (c + ws.w_kernel / 2 - (c + ws.w_kernel / 2 - q.2)))
            else 0) ≠ 0
        rw [hval]
        exact hgq
      · refine Prod.ext ?_ ?_
        · show r + ws.h_kernel / 2 - (r + ws.h_kernel / 2 - q.1) = q.1
          omega
        · show c + ws.w_kernel / 2 - (c + ws.w_kernel / 2 - q.2) = q.2
          omega
    · intro p h1 h2
      have hmem := Finset.mem_product.mp h1
      have hp1 := Finset.mem_range.mp hmem.1
      have hp2 := Finset.mem_range.mp hmem.2
      have hcnd : p.1 ≤ r + ws.h_kernel / 2 ∧ r + ws.h_kernel / 2 < p.1 + ws.h_kernel
          ∧ p.2 ≤ c + ws.w_kernel / 2 ∧ c + ws.w_kernel / 2 < p.2 + ws.w_kernel := by
        by_contra hn
        exact h2 (by rw [if_neg hn, mul_zero])
      show src (p.1 * ws.w_src + p.2)
          * (if p.1 ≤ r + ws.h_kernel / 2 ∧ r + ws.h_kernel / 2 < p.1 + ws.h_kernel
              ∧ p.2 ≤ c + ws.w_kernel / 2 ∧ c + ws.w_kernel / 2 < p.2 + ws.w_kernel
            then kernel ((r + ws.h_kernel / 2 - p.1) * ws.w_kernel
              + (c + ws.w_kernel / 2 - p.2))
            else 0)
        = kernel ((r + ws.h_kernel / 2 - p.1) * ws.w_kernel + (c + ws.w_kernel / 2 - p.2))
          * srcZ ws.h_src ws.w_src src
              ((r : ℤ) + (ws.h_kernel / 2 : ℕ) - (r + ws.h_kernel / 2 - p.1 : ℕ))
              ((c : ℤ) + (ws.w_kernel / 2 : ℕ) - (c + ws.w_kernel / 2 - p.2 : ℕ))
      rw [if_pos hcnd]
      unfold srcZ
      rw [if_pos (by refine ⟨by omega, by omega, by omega, by omega⟩)]
      have e3 : ((r : ℤ) + (ws.h_kernel / 2 : ℕ) - (r + ws.h_kernel / 2 - p.1 : ℕ)).toNat
          = p.1 := by omega
      have e4 : ((c : ℤ) + (ws.w_kernel / 2 : ℕ) - (c + ws.w_kernel / 2 - p.2 : ℕ)).toNat
          = p.2 := by omega
      rw [e3, e4]
      exact mul_comm _ _
  _ = ∑ u ∈ Finset.range ws.h_kernel, ∑ v ∈ Finset.range ws.w_kernel,
        kernel (u * ws.w_kernel + v)
          * srcZ ws.h_src ws.w_src src ((r : ℤ) + (ws.h_kernel / 2 : ℕ) - u)
              ((c : ℤ) + (ws.w_kernel / 2 : ℕ) - v) :=
    Finset.sum_product' (Finset.range ws.h_kernel) (Finset.range ws.w_kernel)
      (fun u v => kernel (u * ws.w_kernel + v)
        * srcZ ws.h_src ws.w_src src ((r : ℤ) + (ws.h_kernel / 2 : ℕ) - u)
            ((c : ℤ) + (ws.w_kernel / 2 : ℕ) - v))
  _ = sameLinearConv ws.h_src ws.w_src ws.h_kernel ws.w_kernel src kernel r c := rfl

/-- Closed form of the packed pipeline for any linear-layout packing with a
working size at least the linear minimum: the final buffer holds the direct
'same'-size linear convolution on the extraction window. -/
theorem packed_pipeline_linear [Field R] (ws : Workspace R)
    (src kernel : ℕ → R) (lsrc lker : List ((ℕ × ℕ) × R))
    (hsl : SrcLayout ws src lsrc) (hkl : KernelLayout ws kernel lker)
    (hcr : DftRoot ws.h_res ws.wv_column) (hwr : DftRoot ws.w_res ws.wv_line)
    (h2 : (2 : R) ≠ 0)
    (hH : ws.h_src + (ws.h_kernel + 1) / 2 ≤ ws.h_res)
    (hW : ws.w_src + (ws.w_kernel + 1) / 2 ≤ ws.w_res)
    {r c : ℕ} (hr : r < ws.h_src) (hc : c < ws.w_src) :
    (transformStage ws (fun i j =>
        ⟨applyWrites lsrc (fun _ => 0) (i, j),
          applyWrites lker (fun _ => 0) (i, j)⟩)).2 r c
      = ⟨sameLinearConv ws.h_src ws.w_src ws.h_kernel ws.w_kernel src kernel r c,
          0⟩ := by
  have h1 := transformStage_closed ws hcr hwr h2
      (fun i j => applyWrites lsrc (fun _ => 0) (i, j))
      (fun i j => applyWrites lker (fun _ => 0) (i, j))
      (show r < ws.h_res by omega) (show c < ws.w_res by omega)
  rw [h1, circ2_real ws.h_res ws.w_res
      (fun a b => applyWrites lsrc (fun _ => 0) (a, b))
      (fun a b => applyWrites lker (fun _ => 0) (a, b)) r c,
    linear_sum_ident ws src kernel lsrc lker hsl hkl hH hW hr hc]

/-- The conditional add/subtract of the periodic extension loop computes the
true modulo on its loop range. -/
theorem wrapSrcIdx_eq_emod {t off n : ℕ} (hn : 0 < n) (hlo : off ≤ t + n)
    (hhi : t < off + 2 * n) :
    ((wrapSrcIdx t off n : ℕ) : ℤ) = ((t : ℤ) - off) % n := by
  have key : ∀ z : ℤ, 0 ≤ z → z < n → z % (n : ℤ) = z := fun z hz1 hz2 =>
    Int.emod_eq_of_lt hz1 hz2
  by_cases hb1 : t < off
  · rw [show wrapSrcIdx t off n = t + n - off from by
      unfold wrapSrcIdx; rw [if_pos hb1]]
    have hcast : ((t + n - off : ℕ) : ℤ) = (t : ℤ) + n - off := by omega
    rw [hcast]
    have hsplit : (t : ℤ) - off = ((t : ℤ) + n - off) + n * (-1) := by ring
    rw [hsplit, Int.add_mul_emod_self_left]
    exact (key ((t : ℤ) + n - off) (by omega) (by omega)).symm
  · by_cases hb2 : n ≤ t - off
    · rw [show wrapSrcIdx t off n = t - off - n from by
        unfold wrapSrcIdx; rw [if_neg hb1, if_pos hb2]]
      have hcast : ((t - off - n : ℕ) : ℤ) = (t : ℤ) - off - n := by omega
      rw [hcast]
      have hsplit : (t : ℤ) - off = ((t : ℤ) - off - n) + n * 1 := by ring
      conv_rhs => rw [hsplit, Int.add_mul_emod_self_left]
      exact (key ((t : ℤ) - off - n) (by omega) (by omega)).symm
    · rw [show wrapSrcIdx t off n = t - off from by
        unfold wrapSrcIdx; rw [if_neg hb1, if_neg hb2]]
      have hcast : ((t - off : ℕ) : ℤ) = (t : ℤ) - off := by omega
      rw [hcast]
      exact (key ((t : ℤ) - off) (by omega) (by omega)).symm

/-- The scalar circular convolution of the extended source channel and the
kernel channel, at the offset extraction window, is the true circular
convolution of source and kernel. -/
theorem circopt_sum_ident [Field R] (ws : Workspace R) (src kernel : ℕ → R)
    (lker : List ((ℕ × ℕ) × R)) (hkl : KernelLayout ws kernel lker)
    (hH : ws.h_src + ws.h_kernel ≤ ws.h_res)
    (hW : ws.w_src + ws.w_kernel ≤ ws.w_res)
    (hoffh : (ws.h_kernel + 1) / 2 ≤ ws.h_src)
    (hoffw : (ws.w_kernel + 1) / 2 ≤ ws.w_src)
    {r c : ℕ} (hr : r < ws.h_src) (hc : c < ws.w_src) :
    (∑ a ∈ Finset.range ws.h_res, ∑ b ∈ Finset.range ws.w_res,
      applyWrites (extensionWrites ws src) (fun _ => 0) (a, b)
        * applyWrites lker (fun _ => 0)
            ((r + (ws.h_kernel + 1) / 2 + ws.h_res - a) % ws.h_res,
              (c + (ws.w_kernel + 1) / 2 + ws.w_res - b) % ws.w_res))
      = circularConvDirect ws.h_src ws.w_src ws.h_kernel ws.w_kernel src kernel r c := by
  have hz2 : ∀ a : ℕ, ∀ b ∈ Finset.range ws.w_res,
      b ∉ Finset.range (ws.w_src + ws.w_kernel) →
      applyWrites (extensionWrites ws src) (fun _ => 0) (a, b)
        * applyWrites lker (fun _ => 0)
            ((r + (ws.h_kernel + 1) / 2 + ws.h_res - a) % ws.h_res,
              (c + (ws.w_kernel + 1) / 2 + ws.w_res - b) % ws.w_res) = 0 := by
    intro a b _ hbn
    rw [extChannel_eq ws src a b, if_neg, zero_mul]
    simp only [Finset.mem_range] at hbn
    omega
  have hz1 : ∀ a ∈ Finset.range ws.h_res, a ∉ Finset.range (ws.h_src + ws.h_kernel) →
      (∑ b ∈ Finset.range ws.w_res,
        applyWrites (extensionWrites ws src) (fun _ => 0) (a, b)
          * applyWrites lker (fun _ => 0)
              ((r + (ws.h_kernel + 1) / 2 + ws.h_res - a) % ws.h_res,
                (c + (ws.w_kernel + 1) / 2 + ws.w_res - b) % ws.w_res)) = 0 := by
    intro a _ han
    refine Finset.sum_eq_zero fun b _ => ?_
    rw [extChannel_eq ws src a b, if_neg, zero_mul]
    simp only [Finset.mem_range] at han
    omega
  calc (∑ a ∈ Finset.range ws.h_res, ∑ b ∈ Finset.range ws.w_res,
      applyWrites (extensionWrites ws src) (fun _ => 0) (a, b)
        * applyWrites lker (fun _ => 0)
            ((r + (ws.h_kernel + 1) / 2 + ws.h_res - a) % ws.h_res,
              (c + (ws.w_kernel + 1) / 2 + ws.w_res - b) % ws.w_res))
      = ∑ a ∈ Finset.range (ws.h_src + ws.h_kernel), ∑ b ∈ Finset.range ws.w_res,
          applyWrites (extensionWrites ws src) (fun _ => 0) (a, b)
            * applyWrites lker (fun _ => 0)
                ((r + (ws.h_kernel + 1) / 2 + ws.h_res - a) % ws.h_res,
                  (c + (ws.w_kernel + 1) / 2 + ws.w_res - b) % ws.w_res) :=
    (Finset.sum_subset (Finset.range_subset.mpr (by omega)) hz1).symm
  _ = ∑ a ∈ Finset.range (ws.h_src + ws.h_kernel),
        ∑ b ∈ Finset.range (ws.w_src + ws.w_kernel),
          applyWrites (extensionWrites ws src) (fun _ => 0) (a, b)
            * applyWrites lker (fun _ => 0)
                ((r + (ws.h_kernel + 1) / 2 + ws.h_res - a) % ws.h_res,
                  (c + (ws.w_kernel + 1) / 2 + ws.w_res - b) % ws.w_res) :=
    Finset.sum_congr rfl fun a _ =>
      (Finset.sum_subset (Finset.range_subset.mpr (by omega)) (hz2 a)).symm
  _ = ∑ a ∈ Finset.range (ws.h_src + ws.h_kernel),
        ∑ b ∈ Finset.range (ws.w_src + ws.w_kernel),
          src (wrapSrcIdx a ((ws.h_kernel + 1) / 2) ws.h_src * ws.w_src
              + wrapSrcIdx b ((ws.w_kernel + 1) / 2) ws.w_src)
            * (if r < a ∧ a ≤ r + ws.h_kernel ∧ c < b ∧ b ≤ c + ws.w_kernel
              then kernel ((r + ws.h_kernel - a) * ws.w_kernel + (c + ws.w_kernel - b))
              else 0) := by
    refine Finset.sum_congr rfl fun a ha => Finset.sum_congr rfl fun b hb => ?_
    rw [extChannel_eq ws src a b,
      if_pos ⟨Finset.mem_range.mp ha, Finset.mem_range.mp hb⟩,
      circopt_kernel_cell ws kernel lker hkl hH hW hr (Finset.mem_range.mp ha)
        hc (Finset.mem_range.mp hb)]
  _ = ∑ p ∈ Finset.range (ws.h_src + ws.h_kernel) ×ˢ Finset.range (ws.w_src + ws.w_kernel),
        src (wrapSrcIdx p.1 ((ws.h_kernel + 1) / 2) ws.h_src * ws.w_src
            + wrapSrcIdx p.2 ((ws.w_kernel + 1) / 2) ws.w_src)
          * (if r < p.1 ∧ p.1 ≤ r + ws.h_kernel ∧ c < p.2 ∧ p.2 ≤ c + ws.w_kernel
            then kernel ((r + ws.h_kernel - p.1) * ws.w_kernel + (c + ws.w_kernel - p.2))
            else 0) :=
    (Finset.sum_product' (Finset.range (ws.h_src + ws.h_kernel))
      (Finset.range (ws.w_src + ws.w_kernel))
      (fun a b => src (wrapSrcIdx a ((ws.h_kernel + 1) / 2) ws.h_src * ws.w_src
          + wrapSrcIdx b ((ws.w_kernel + 1) / 2) ws.w_src)
        * (if r < a ∧ a ≤ r + ws.h_kernel ∧ c < b ∧ b ≤ c + ws.w_kernel
          then kernel ((r + ws.h_kernel - a) * ws.w_kernel + (c + ws.w_kernel - b))
          else 0))).symm
  _ = ∑ q ∈ Finset.range ws.h_kernel ×ˢ Finset.range ws.w_kernel,
        kernel (q.1 * ws.w_kernel + q.2)
          * src ((((r : ℤ) + (ws.h_kernel / 2 : ℕ) - q.1) % (ws.h_src : ℤ)).toNat
              * ws.w_src
              + (((c : ℤ) + (ws.w_kernel / 2 : ℕ) - q.2) % (ws.w_src : ℤ)).toNat) := by
    have hvalmatch : ∀ p : ℕ × ℕ, p.1 < ws.h_src + ws.h_kernel →
        p.2 < ws.w_src + ws.w_kernel →
        (r < p.1 ∧ p.1 ≤ r + ws.h_kernel ∧ c < p.2 ∧ p.2 ≤ c + ws.w_kernel) →
        src (wrapSrcIdx p.1 ((ws.h_kernel + 1) / 2) ws.h_src * ws.w_src
            + wrapSrcIdx p.2 ((ws.w_kernel + 1) / 2) ws.w_src)
          * kernel ((r + ws.h_kernel - p.1) * ws.w_kernel + (c + ws.w_kernel - p.2))
        = kernel ((r + ws.h_kernel - p.1) * ws.w_kernel + (c + ws.w_kernel - p.2))
          * src ((((r : ℤ) + (ws.h_kernel / 2 : ℕ) - (r + ws.h_kernel - p.1 : ℕ))
                % (ws.h_src : ℤ)).toNat * ws.w_src
              + (((c : ℤ) + (ws.w_kernel / 2 : ℕ) - (c + ws.w_kernel - p.2 : ℕ))
                % (ws.w_src : ℤ)).toNat) := by
      intro p hpa hpb hcnd
      have ea : ((r : ℤ) + (ws.h_kernel / 2 : ℕ) - (r + ws.h_kernel - p.1 : ℕ))
          = (p.1 : ℤ) - ((ws.h_kernel + 1) / 2 : ℕ) := by omega
      have eb : ((c : ℤ) + (ws.w_kernel / 2 : ℕ) - (c + ws.w_kernel - p.2 : ℕ))
          = (p.2 : ℤ) - ((ws.w_kernel + 1) / 2 : ℕ) := by omega
      rw [ea, eb]
      have wa := @wrapSrcIdx_eq_emod p.1 ((ws.h_kernel + 1) / 2) ws.h_src
        (by omega) (by omega) (by omega)
      have wb := @wrapSrcIdx_eq_emod p.2 ((ws.w_kernel + 1) / 2) ws.w_src
        (by omega) (by omega) (by omega)
      have ea2 : wrapSrcIdx p.1 ((ws.h_kernel + 1) / 2) ws.h_src
          = (((p.1 : ℤ) - ((ws.h_kernel + 1) / 2 : ℕ)) % (ws.h_src : ℤ)).toNat := by
        omega
      have eb2 : wrapSrcIdx p.2 ((ws.w_kernel + 1) / 2) ws.w_src
          = (((p.2 : ℤ) - ((ws.w_kernel + 1) / 2 : ℕ)) % (ws.w_src : ℤ)).toNat := by
        omega
      rw [ea2, eb2]
      exact mul_comm _ _
    refine Finset.sum_bij_ne_zero
      (fun p h1 h2 => (r + ws.h_kernel - p.1, c + ws.w_kernel - p.2))
      ?_ ?_ ?_ ?_
    · intro p h1 h2
      have hmem := Finset.mem_product.mp h1
      have hp1 := Finset.mem_range.mp hmem.1
      have hp2 := Finset.mem_range.mp hmem.2
      have hcnd : r < p.1 ∧ p.1 ≤ r + ws.h_kernel ∧ c < p.2 ∧ p.2 ≤ c + ws.w_kernel := by
        by_contra hn
        exact h2 (by rw [if_neg hn, mul_zero])
      simp only [Finset.mem_product, Finset.mem_range]
      constructor <;> omega
    · intro p1 h11 h12 p2 h21 h22 heq
      have hcnd1 : r < p1.1 ∧ p1.1 ≤ r + ws.h_kernel ∧ c < p1.2 ∧ p1.2 ≤ c + ws.w_kernel := by
        by_contra hn
        exact h12 (by rw [if_neg hn, mul_zero])
      have hcnd2 : r < p2.1 ∧ p2.1 ≤ r + ws.h_kernel ∧ c < p2.2 ∧ p2.2 ≤ c + ws.w_kernel := by
        by_contra hn
        exact h22 (by rw [if_neg hn, mul_zero])
      have hq1 : r + ws.h_kernel - p1.1 = r + ws.h_kernel - p2.1 :=
        congrArg Prod.fst heq
      have hq2 : c + ws.w_kernel - p1.2 = c + ws.w_kernel - p2.2 :=
        congrArg Prod.snd heq
      refine Prod.ext ?_ ?_ <;> omega
    · intro q hq hgq
      have hqmem := Finset.mem_product.mp hq
      have hq1 := Finset.mem_range.mp hqmem.1
      have hq2 := Finset.mem_range.mp hqmem.2
      refine ⟨(r + ws.h_kernel - q.1, c + ws.w_kernel - q.2), ?_, ?_, ?_⟩
      · simp only [Finset.mem_product, Finset.mem_range]
        constructor <;> omega
      · have hfeq := hvalmatch (r + ws.h_kernel - q.1, c + ws.w_kernel - q.2)
          (by omega) (by omega) (by refine ⟨by omega, by omega, by omega, by omega⟩)
        have e1 : r + ws.h_kernel - (r + ws.h_kernel - q.1) = q.1 := by omega
        have e2 : c + ws.w_kernel - (c + ws.w_kernel - q.2) = q.2 := by omega
        show src (wrapSrcIdx (r + ws.h_kernel - q.1) ((ws.h_kernel + 1) / 2) ws.h_src
              * ws.w_src
            + wrapSrcIdx (c + ws.w_kernel - q.2) ((ws.w_kernel + 1) / 2) ws.w_src)
          * (if r < r + ws.h_kernel - q.1 ∧ r + ws.h_kernel - q.1 ≤ r + ws.h_kernel
              ∧ c < c + ws.w_kernel - q.2 ∧ c + ws.w_kernel - q.2 ≤ c + ws.w_kernel
            then kernel ((r + ws.h_kernel - (r + ws.h_kernel - q.1)) * ws.w_kernel
              + (c + ws.w_kernel - (c + ws.w_kernel - q.2)))
            else 0) ≠ 0
        rw [if_pos (by refine ⟨by omega, by omega, by omega, by omega⟩)]
        rw [e1, e2] at hfeq ⊢
        intro hzero
        apply hgq
        rw [← hfeq]
        · exact hzero
      · refine Prod.ext ?_ ?_
        · show r + ws.h_kernel - (r + ws.h_kernel - q.1) = q.1
          omega
        · show c + ws.w_kernel - (c + ws.w_kernel - q.2) = q.2
          omega
    · intro p h1 h2
      have hmem := Finset.mem_product.mp h1
      have hp1 := Finset.mem_range.mp hmem.1
      have hp2 := Finset.mem_range.mp hmem.2
      have hcnd : r < p.1 ∧ p.1 ≤ r + ws.h_kernel ∧ c < p.2 ∧ p.2 ≤ c + ws.w_kernel := by
        by_contra hn
        exact h2 (by rw [if_neg hn, mul_zero])
      show src (wrapSrcIdx p.1 ((ws.h_kernel + 1) / 2) ws.h_src * ws.w_src
            + wrapSrcIdx p.2 ((ws.w_kernel + 1) / 2) ws.w_src)
          * (if r < p.1 ∧ p.1 ≤ r + ws.h_kernel ∧ c < p.2 ∧ p.2 ≤ c + ws.w_kernel
            then kernel ((r + ws.h_kernel - p.1) * ws.w_kernel + (c + ws.w_kernel - p.2))
            else 0)
        = kernel ((r + ws.h_kernel - p.1) * ws.w_kernel + (c + ws.w_kernel - p.2))
          * src ((((r : ℤ) + (ws.h_kernel / 2 : ℕ) - (r + ws.h_kernel - p.1 : ℕ))
                % (ws.h_src : ℤ)).toNat * ws.w_src
              + (((c : ℤ) + (ws.w_kernel / 2 : ℕ) - (c + ws.w_kernel - p.2 : ℕ))
                % (ws.w_src : ℤ)).toNat)
      rw [if_pos hcnd]
      exact hvalmatch p hp1 hp2 hcnd
  _ = ∑ u ∈ Finset.range ws.h_kernel, ∑ v ∈ Finset.range ws.w_kernel,
        kernel (u * ws.w_kernel + v)
          * src ((((r : ℤ) + (ws.h_kernel / 2 : ℕ) - u) % (ws.h_src : ℤ)).toNat
              * ws.w_src
              + (((c : ℤ) + (ws.w_kernel / 2 : ℕ) - v) % (ws.w_src : ℤ)).toNat) :=
    Finset.sum_product' (Finset.range ws.h_kernel) (Finset.range ws.w_kernel)
      (fun u v => kernel (u * ws.w_kernel + v)
        * src ((((r : ℤ) + (ws.h_kernel / 2 : ℕ) - u) % (ws.h_src : ℤ)).toNat
            * ws.w_src
            + (((c : ℤ) + (ws.w_kernel / 2 : ℕ) - v) % (ws.w_src : ℤ)).toNat))
  _ = circularConvDirect ws.h_src ws.w_src ws.h_kernel ws.w_kernel src kernel r c := rfl

/-- Closed form of the circular-optimal pipeline: at the offset extraction
window the final buffer holds the true circular convolution. -/
theorem circopt_pipeline_closed [Field R] (ws : Workspace R)
    (src kernel : ℕ → R) (lker : List ((ℕ × ℕ) × R))
    (hkl : KernelLayout ws kernel lker)
    (hcr : DftRoot ws.h_res ws.wv_column) (hwr : DftRoot ws.w_res ws.wv_line)
    (h2 : (2 : R) ≠ 0)
    (hH : ws.h_src + ws.h_kernel ≤ ws.h_res)
    (hW : ws.w_src + ws.w_kernel ≤ ws.w_res)
    (hoffh : (ws.h_kernel + 1) / 2 ≤ ws.h_src)
    (hoffw : (ws.w_kernel + 1) / 2 ≤ ws.w_src)
    {r c : ℕ} (hr : r < ws.h_src) (hc : c < ws.w_src) :
    (transformStage ws (fun i j =>
        ⟨applyWrites (extensionWrites ws src) (fun _ => 0) (i, j),
          applyWrites lker (fun _ => 0) (i, j)⟩)).2
        (r + (ws.h_kernel + 1) / 2) (c + (ws.w_kernel + 1) / 2)
      = ⟨circularConvDirect ws.h_src ws.w_src ws.h_kernel ws.w_kernel src kernel r c,
          0⟩ := by
  have h1 := transformStage_closed ws hcr hwr h2
      (fun i j => applyWrites (extensionWrites ws src) (fun _ => 0) (i, j))
      (fun i j => applyWrites lker (fun _ => 0) (i, j))
      (show r + (ws.h_kernel + 1) / 2 < ws.h_res by omega)
      (show c + (ws.w_kernel + 1) / 2 < ws.w_res by omega)
  rw [h1, circ2_real ws.h_res ws.w_res
      (fun a b => applyWrites (extensionWrites ws src) (fun _ => 0) (a, b))
      (fun a b => applyWrites lker (fun _ => 0) (a, b))
      (r + (ws.h_kernel + 1) / 2) (c + (ws.w_kernel + 1) / 2),
    circopt_sum_ident ws src kernel lker hkl hH hW hoffh hoffw hr hc]

/-! ## Per-routine destination values -/

theorem extractDst_at [Field R] (ws : Workspace R) (final : ℕ → ℕ → Cx R)
    (dst : ℕ → R) {r c : ℕ} (hr : r < ws.h_src) (hc : c < ws.w_src) :
    extractDst ws final dst (r * ws.w_src + c) = (final r c).re := by
  unfold extractDst
  rw [if_pos (flat_lt hr hc), flat_div r hc, flat_mod r hc]

/-- `linear_convolution` writes the direct 'same'-size linear convolution. -/
theorem linear_convolution_dst [Field R] (ws : Workspace R) (s : State R)
    (hcr : DftRoot ws.h_res ws.wv_column) (hwr : DftRoot ws.w_res ws.wv_line)
    (h2 : (2 : R) ≠ 0)
    (hH : ws.h_src + (ws.h_kernel + 1) / 2 ≤ ws.h_res)
    (hW : ws.w_src + (ws.w_kernel + 1) / 2 ≤ ws.w_res)
    {r c : ℕ} (hr : r < ws.h_src) (hc : c < ws.w_src) :
    (linear_convolution ws s).dst (r * ws.w_src + c)
      = sameLinearConv ws.h_src ws.w_src ws.h_kernel ws.w_kernel
          s.src s.kernel r c := by
  show extractDst ws (transformStage ws (fun i j =>
      ⟨applyWrites (srcWritesLinear ws s.src) (fun _ => 0) (i, j),
        applyWrites (kernelWritesLinear ws s.kernel) (fun _ => 0) (i, j)⟩)).2 s.dst
      (r * ws.w_src + c) = _
  rw [extractDst_at ws _ s.dst hr hc,
    packed_pipeline_linear ws s.src s.kernel _ _ (srcWritesLinear_layout ws s.src)
      (kernelWritesLinear_layout ws s.kernel) hcr hwr h2 hH hW hr hc]

/-- `circular_convolution` also writes the direct 'same'-size linear
convolution: its kernel placement is the same recentered store set and its
(zero-padded) source placement is identical, with working size
src+kernel ≥ the linear minimum. -/
theorem circular_convolution_dst [Field R] (ws : Workspace R) (s : State R)
    (hcr : DftRoot ws.h_res ws.wv_column) (hwr : DftRoot ws.w_res ws.wv_line)
    (h2 : (2 : R) ≠ 0)
    (hH : ws.h_src + (ws.h_kernel + 1) / 2 ≤ ws.h_res)
    (hW : ws.w_src + (ws.w_kernel + 1) / 2 ≤ ws.w_res)
    {r c : ℕ} (hr : r < ws.h_src) (hc : c < ws.w_src) :
    (circular_convolution ws s).dst (r * ws.w_src + c)
      = sameLinearConv ws.h_src ws.w_src ws.h_kernel ws.w_kernel
          s.src s.kernel r c := by
  show extractDst ws (transformStage ws (fun i j =>
      ⟨applyWrites (srcWritesCircular ws s.src) (fun _ => 0) (i, j),
        applyWrites (kernelWritesCircular ws s.kernel) (fun _ => 0) (i, j)⟩)).2 s.dst
      (r * ws.w_src + c) = _
  rw [extractDst_at ws _ s.dst hr hc,
    packed_pipeline_linear ws s.src s.kernel _ _ (srcWritesCircular_layout ws s.src)
      (kernelWritesCircular_layout ws s.kernel (by omega) (by omega))
      hcr hwr h2 hH hW hr hc]

/-- `circular_convolution_optimal` writes the true circular convolution. -/
theorem circular_convolution_optimal_dst [Field R] (ws : Workspace R) (s : State R)
    (hcr : DftRoot ws.h_res ws.wv_column) (hwr : DftRoot ws.w_res ws.wv_line)
    (h2 : (2 : R) ≠ 0)
    (hH : ws.h_src + ws.h_kernel ≤ ws.h_res)
    (hW : ws.w_src + ws.w_kernel ≤ ws.w_res)
    (hoffh : (ws.h_kernel + 1) / 2 ≤ ws.h_src)
    (hoffw : (ws.w_kernel + 1) / 2 ≤ ws.w_src)
    {r c : ℕ} (hr : r < ws.h_src) (hc : c < ws.w_src) :
    (circular_convolution_optimal ws s).dst (r * ws.w_src + c)
      = circularConvDirect ws.h_src ws.w_src ws.h_kernel ws.w_kernel
          s.src s.kernel r c := by
  show (if r * ws.w_src + c < ws.h_src * ws.w_src
      then ((transformStage ws (fun i j =>
        ⟨applyWrites (extensionWrites ws s.src) (fun _ => 0) (i, j),
          applyWrites (kernelWritesLinear ws s.kernel) (fun _ => 0) (i, j)⟩)).2
          ((r * ws.w_src + c) / ws.w_src + (ws.h_kernel + 1) / 2)
          ((r * ws.w_src + c) % ws.w_src + (ws.w_kernel + 1) / 2)).re
      else s.dst (r * ws.w_src + c)) = _
  rw [if_pos (flat_lt hr hc), flat_div r hc, flat_mod r hc,
    circopt_pipeline_closed ws s.src s.kernel _
      (kernelWritesLinear_layout ws s.kernel) hcr hwr h2 hH hW hoffh hoffw hr hc]

/-! ## Concrete wavetable roots over ℚ, for witnesses and counterexamples -/

theorem dftRoot_two : DftRoot 2 (⟨-1, 0⟩ : Cx ℚ) := by
  refine ⟨?_, ?_, ?_, ?_⟩
  · ext <;> norm_num [pow_succ]
  · ext <;> norm_num [Cx.cconj]
  · norm_num
  · intro k hk1 hk2
    interval_cases k
    · exact absurd rfl hk2
    · rw [Finset.sum_range_succ, Finset.sum_range_succ, Finset.sum_range_zero]
      ext <;> norm_num

theorem dftRoot_four : DftRoot 4 (⟨0, -1⟩ : Cx ℚ) := by
  refine ⟨?_, ?_, ?_, ?_⟩
  · ext <;> norm_num [pow_succ]
  · ext <;> norm_num [Cx.cconj]
  · norm_num
  · intro k hk1 hk2
    interval_cases k
    · exact absurd rfl hk2
    · rw [Finset.sum_range_succ, Finset.sum_range_succ, Finset.sum_range_succ,
        Finset.sum_range_succ, Finset.sum_range_zero]
      ext <;> norm_num [pow_succ]
    · rw [Finset.sum_range_succ, Finset.sum_range_succ, Finset.sum_range_succ,
        Finset.sum_range_succ, Finset.sum_range_zero]
      ext <;> norm_num [pow_succ]
    · rw [Finset.sum_range_succ, Finset.sum_range_succ, Finset.sum_range_succ,
        Finset.sum_range_succ, Finset.sum_range_zero]
      ext <;> norm_num [pow_succ]

theorem dftRoot_fcf_two : DftRoot (find_closest_factor 2) (⟨-1, 0⟩ : Cx ℚ) := by
  rw [find_closest_factor_two]
  exact dftRoot_two

theorem dftRoot_fcf_four : DftRoot (find_closest_factor 4) (⟨0, -1⟩ : Cx ℚ) := by
  rw [find_closest_factor_four]
  exact dftRoot_four

/-! ## Claims -/

/-- C3: after `init_workspace`, the working dimensions dominate the source
dimensions in every mode; Linear gets exactly `src + ⌊(kernel+1)/2⌋`,
Circular exactly `src + kernel`, the Optimal modes at least those minima;
src_height = 10 with kernel_height = 3 gives 12 (Linear) and 13 (Circular). -/
theorem claim_init_geometry [Field R] (mode : GSL_Convolution_Mode)
    (h w hk wk : ℕ) (hh : 1 ≤ h) (hw : 1 ≤ w) (hhk : 1 ≤ hk) (hwk : 1 ≤ wk)
    (ζc ζr : Cx R) :
    (h ≤ (init_workspace mode h w hk wk ζc ζr).h_res
      ∧ w ≤ (init_workspace mode h w hk wk ζc ζr).w_res)
    ∧ ((init_workspace LINEAR h w hk wk ζc ζr).h_res = h + (hk + 1) / 2
      ∧ (init_workspace LINEAR h w hk wk ζc ζr).w_res = w + (wk + 1) / 2)
    ∧ ((init_workspace CIRCULAR h w hk wk ζc ζr).h_res = h + hk
      ∧ (init_workspace CIRCULAR h w hk wk ζc ζr).w_res = w + wk)
    ∧ (h + (hk + 1) / 2 ≤ (init_workspace LINEAR_OPTIMAL h w hk wk ζc ζr).h_res
      ∧ w + (wk + 1) / 2 ≤ (init_workspace LINEAR_OPTIMAL h w hk wk ζc ζr).w_res
      ∧ h + hk ≤ (init_workspace CIRCULAR_OPTIMAL h w hk wk ζc ζr).h_res
      ∧ w + wk ≤ (init_workspace CIRCULAR_OPTIMAL h w hk wk ζc ζr).w_res)
    ∧ (init_workspace LINEAR 10 w 3 wk ζc ζr).h_res = 12
    ∧ (init_workspace CIRCULAR 10 w 3 wk ζc ζr).h_res = 13 := by
  refine ⟨?_, ⟨rfl, rfl⟩, ⟨rfl, rfl⟩,
    ⟨le_find_closest_factor _, le_find_closest_factor _,
      le_find_closest_factor _, le_find_closest_factor _⟩, rfl, rfl⟩
  cases mode
  · constructor
    · show h ≤ h + (hk + 1) / 2
      omega
    · show w ≤ w + (wk + 1) / 2
      omega
  · constructor
    · show h ≤ find_closest_factor (h + (hk + 1) / 2)
      exact le_trans (by omega) (le_find_closest_factor (h + (hk + 1) / 2))
    · show w ≤ find_closest_factor (w + (wk + 1) / 2)
      exact le_trans (by omega) (le_find_closest_factor (w + (wk + 1) / 2))
  · constructor
    · show h ≤ h + hk
      omega
    · show w ≤ w + wk
      omega
  · constructor
    · show h ≤ find_closest_factor (h + hk)
      exact le_trans (by omega) (le_find_closest_factor (h + hk))
    · show w ≤ find_closest_factor (w + wk)
      exact le_trans (by omega) (le_find_closest_factor (w + wk))

theorem claim_init_geometry_witness :
    (1 : ℕ) ≤ 1 ∧
      (((1 ≤ (init_workspace LINEAR 1 1 1 1 (0 : Cx ℚ) 0).h_res
        ∧ 1 ≤ (init_workspace LINEAR 1 1 1 1 (0 : Cx ℚ) 0).w_res)
      ∧ ((init_workspace LINEAR 1 1 1 1 (0 : Cx ℚ) 0).h_res = 1 + (1 + 1) / 2
        ∧ (init_workspace LINEAR 1 1 1 1 (0 : Cx ℚ) 0).w_res = 1 + (1 + 1) / 2)
      ∧ ((init_workspace CIRCULAR 1 1 1 1 (0 : Cx ℚ) 0).h_res = 1 + 1
        ∧ (init_workspace CIRCULAR 1 1 1 1 (0 : Cx ℚ) 0).w_res = 1 + 1)
      ∧ (1 + (1 + 1) / 2 ≤ (init_workspace LINEAR_OPTIMAL 1 1 1 1 (0 : Cx ℚ) 0).h_res
        ∧ 1 + (1 + 1) / 2 ≤ (init_workspace LINEAR_OPTIMAL 1 1 1 1 (0 : Cx ℚ) 0).w_res
        ∧ 1 + 1 ≤ (init_workspace CIRCULAR_OPTIMAL 1 1 1 1 (0 : Cx ℚ) 0).h_res
        ∧ 1 + 1 ≤ (init_workspace CIRCULAR_OPTIMAL 1 1 1 1 (0 : Cx ℚ) 0).w_res)
      ∧ (init_workspace LINEAR 10 1 3 1 (0 : Cx ℚ) 0).h_res = 12
      ∧ (init_workspace CIRCULAR 10 1 3 1 (0 : Cx ℚ) 0).h_res = 13)) :=
  ⟨le_refl 1, claim_init_geometry LINEAR 1 1 1 1 (by omega) (by omega) (by omega)
    (by omega) 0 0⟩

/-- C4 (records the divergence): when the stored mode value is outside the
four recognized enumerators, `convolve` takes the diagnostic default branch
(`// TODO EXCEPTION`) and returns with the entire state — in particular
`dst` — unchanged, reporting no error value to the caller. -/
theorem claim_unrecognized_mode_silent [Field R] (ws : Workspace R) (s : State R)
    (hmode : 4 ≤ ws.mode) : convolve ws s = s := by
  unfold convolve
  split
  · omega
  · omega
  · omega
  · omega
  · rfl

theorem claim_unrecognized_mode_silent_witness :
    4 ≤ (Workspace.mk 1 1 1 1 1 1 4 (0 : Cx ℚ) 0).mode ∧
      convolve (Workspace.mk 1 1 1 1 1 1 4 (0 : Cx ℚ) 0)
        (State.mk (fun _ => 1) (fun _ => 1) (fun _ => 0) (fun _ _ => 0) (fun _ _ => 0))
      = State.mk (fun _ => 1) (fun _ => 1) (fun _ => 0) (fun _ _ => 0) (fun _ _ => 0) :=
  ⟨le_refl 4, claim_unrecognized_mode_silent _ _ (le_refl 4)⟩

/-- C10: `convolve` never modifies the caller's source or kernel arrays in
any mode (all stores go to the working buffers and to dst). -/
theorem claim_convolve_preserves_caller_arrays [Field R] (ws : Workspace R)
    (s : State R) :
    (convolve ws s).src = s.src ∧ (convolve ws s).kernel = s.kernel := by
  unfold convolve
  split <;> exact ⟨rfl, rfl⟩

/-- C9: for every recognized mode, the dst region written by `convolve` is a
function of the geometry, the source and the kernel only: prior contents of
the working buffers and of dst are irrelevant. -/
theorem claim_dst_only_depends_on_inputs [Field R] (ws : Workspace R)
    (s1 s2 : State R) (hmode : ws.mode < 4) (hsrc : s1.src = s2.src)
    (hker : s1.kernel = s2.kernel) (idx : ℕ)
    (hidx : idx < ws.h_src * ws.w_src) :
    (convolve ws s1).dst idx = (convolve ws s2).dst idx := by
  have h4 : ws.mode = 0 ∨ ws.mode = 1 ∨ ws.mode = 2 ∨ ws.mode = 3 := by omega
  rcases h4 with hm | hm | hm | hm <;>
    simp only [convolve, hm, linear_convolution_optimal, linear_convolution,
      circular_convolution, circular_convolution_optimal, extractDst] <;>
    rw [hsrc, hker, if_pos hidx, if_pos hidx]

theorem claim_dst_only_depends_on_inputs_witness :
    (Workspace.mk 1 1 1 1 2 2 0 (⟨-1, 0⟩ : Cx ℚ) ⟨-1, 0⟩).mode < 4
    ∧ (State.mk (fun _ => 1) (fun _ => 1) (fun _ => 5) (fun _ _ => ⟨7, 7⟩)
        (fun _ _ => ⟨7, 7⟩) : State ℚ).src
      = (State.mk (fun _ => 1) (fun _ => 1) (fun _ => 9) (fun _ _ => 0)
        (fun _ _ => 0) : State ℚ).src
    ∧ (State.mk (fun _ => 1) (fun _ => 1) (fun _ => 5) (fun _ _ => ⟨7, 7⟩)
        (fun _ _ => ⟨7, 7⟩) : State ℚ).kernel
      = (State.mk (fun _ => 1) (fun _ => 1) (fun _ => 9) (fun _ _ => 0)
        (fun _ _ => 0) : State ℚ).kernel
    ∧ (0 : ℕ) < (Workspace.mk 1 1 1 1 2 2 0 (⟨-1, 0⟩ : Cx ℚ) ⟨-1, 0⟩).h_src
        * (Workspace.mk 1 1 1 1 2 2 0 (⟨-1, 0⟩ : Cx ℚ) ⟨-1, 0⟩).w_src
    ∧ (convolve (Workspace.mk 1 1 1 1 2 2 0 (⟨-1, 0⟩ : Cx ℚ) ⟨-1, 0⟩)
        (State.mk (fun _ => 1) (fun _ => 1) (fun _ => 5) (fun _ _ => ⟨7, 7⟩)
          (fun _ _ => ⟨7, 7⟩))).dst 0
      = (convolve (Workspace.mk 1 1 1 1 2 2 0 (⟨-1, 0⟩ : Cx ℚ) ⟨-1, 0⟩)
        (State.mk (fun _ => 1) (fun _ => 1) (fun _ => 9) (fun _ _ => 0)
          (fun _ _ => 0))).dst 0 :=
  ⟨by norm_num, rfl, rfl, by norm_num,
    claim_dst_only_depends_on_inputs _ _ _ (by norm_num) rfl rfl 0 (by norm_num)⟩

/-- C1: with a workspace initialized in Linear mode for the given shapes,
`convolve` writes into dst exactly the direct spatial-domain 'same'-size
linear convolution (kernel centered at (⌊hk/2⌋, ⌊wk/2⌋), zero padding
outside the source) at every output index of [0,h)×[0,w). -/
theorem claim_linear_mode_direct_convolution [Field R] (h w hk wk : ℕ)
    (ζc ζr : Cx R)
    (hcr : DftRoot (h + (hk + 1) / 2) ζc) (hwr : DftRoot (w + (wk + 1) / 2) ζr)
    (h2 : (2 : R) ≠ 0) (s : State R) (r c : ℕ) (hr : r < h) (hc : c < w) :
    (convolve (init_workspace LINEAR h w hk wk ζc ζr) s).dst (r * w + c)
      = sameLinearConv h w hk wk s.src s.kernel r c :=
  linear_convolution_dst (init_workspace LINEAR h w hk wk ζc ζr) s
    hcr hwr h2 (le_refl (h + (hk + 1) / 2)) (le_refl (w + (wk + 1) / 2)) hr hc

theorem claim_linear_mode_direct_convolution_witness :
    DftRoot (1 + (1 + 1) / 2) (⟨-1, 0⟩ : Cx ℚ) ∧ ((2 : ℚ) ≠ 0) ∧ (0 : ℕ) < 1
    ∧ (convolve (init_workspace LINEAR 1 1 1 1 (⟨-1, 0⟩ : Cx ℚ) ⟨-1, 0⟩)
        (State.mk (fun _ => 1) (fun _ => 1) (fun _ => 0) (fun _ _ => 0)
          (fun _ _ => 0))).dst (0 * 1 + 0)
      = sameLinearConv 1 1 1 1
          (State.mk (fun _ => (1 : ℚ)) (fun _ => 1) (fun _ => 0) (fun _ _ => 0)
            (fun _ _ => 0)).src
          (State.mk (fun _ => (1 : ℚ)) (fun _ => 1) (fun _ => 0) (fun _ _ => 0)
            (fun _ _ => 0)).kernel 0 0 :=
  ⟨dftRoot_two, by norm_num, by norm_num,
    claim_linear_mode_direct_convolution 1 1 1 1 _ _ dftRoot_two dftRoot_two
      (by norm_num) _ 0 0 (by norm_num) (by norm_num)⟩

/-- C5: LinearOptimal writes the same dst values as Linear for the same
shapes and inputs, although the internal working sizes differ (exact minimal
size versus the closest GSL-factorizable size). -/
theorem claim_linear_optimal_equals_linear [Field R] (h w hk wk : ℕ)
    (ζc ζr ηc ηr : Cx R)
    (hcr : DftRoot (h + (hk + 1) / 2) ζc) (hwr : DftRoot (w + (wk + 1) / 2) ζr)
    (hcr2 : DftRoot (find_closest_factor (h + (hk + 1) / 2)) ηc)
    (hwr2 : DftRoot (find_closest_factor (w + (wk + 1) / 2)) ηr)
    (h2 : (2 : R) ≠ 0) (s : State R) (r c : ℕ) (hr : r < h) (hc : c < w) :
    (convolve (init_workspace LINEAR_OPTIMAL h w hk wk ηc ηr) s).dst (r * w + c)
      = (convolve (init_workspace LINEAR h w hk wk ζc ζr) s).dst (r * w + c) := by
  have e1 : (convolve (init_workspace LINEAR_OPTIMAL h w hk wk ηc ηr) s).dst
        (r * w + c)
      = sameLinearConv h w hk wk s.src s.kernel r c :=
    linear_convolution_dst (init_workspace LINEAR_OPTIMAL h w hk wk ηc ηr) s
      hcr2 hwr2 h2 (le_find_closest_factor (h + (hk + 1) / 2))
      (le_find_closest_factor (w + (wk + 1) / 2)) hr hc
  have e2 : (convolve (init_workspace LINEAR h w hk wk ζc ζr) s).dst (r * w + c)
      = sameLinearConv h w hk wk s.src s.kernel r c :=
    linear_convolution_dst (init_workspace LINEAR h w hk wk ζc ζr) s
      hcr hwr h2 (le_refl (h + (hk + 1) / 2)) (le_refl (w + (wk + 1) / 2)) hr hc
  exact e1.trans e2.symm

theorem claim_linear_optimal_equals_linear_witness :
    DftRoot (1 + (1 + 1) / 2) (⟨-1, 0⟩ : Cx ℚ)
    ∧ DftRoot (find_closest_factor (1 + (1 + 1) / 2)) (⟨-1, 0⟩ : Cx ℚ)
    ∧ ((2 : ℚ) ≠ 0) ∧ (0 : ℕ) < 1
    ∧ (convolve (init_workspace LINEAR_OPTIMAL 1 1 1 1 (⟨-1, 0⟩ : Cx ℚ) ⟨-1, 0⟩)
        (State.mk (fun _ => 1) (fun _ => 1) (fun _ => 0) (fun _ _ => 0)
          (fun _ _ => 0))).dst (0 * 1 + 0)
      = (convolve (init_workspace LINEAR 1 1 1 1 (⟨-1, 0⟩ : Cx ℚ) ⟨-1, 0⟩)
        (State.mk (fun _ => 1) (fun _ => 1) (fun _ => 0) (fun _ _ => 0)
          (fun _ _ => 0))).dst (0 * 1 + 0) :=
  ⟨dftRoot_two, dftRoot_fcf_two, by norm_num, by norm_num,
    claim_linear_optimal_equals_linear 1 1 1 1 _ _ _ _ dftRoot_two dftRoot_two
      dftRoot_fcf_two dftRoot_fcf_two (by norm_num) _ 0 0 (by norm_num) (by norm_num)⟩

/-- C6 (amended): the two circular modes do NOT agree.  CircularOptimal
computes the true periodic (circular) convolution of source and kernel,
while Circular computes the zero-padded 'same' linear convolution (the same
values Linear mode writes): its `src + kernel` working size provides enough
zero padding that the four-quadrant wraparound packing never actually wraps
onto the data. -/
theorem claim_circular_optimal_amended [Field R] (h w hk wk : ℕ)
    (ζc ζr ηc ηr : Cx R)
    (hcrO : DftRoot (find_closest_factor (h + hk)) ηc)
    (hwrO : DftRoot (find_closest_factor (w + wk)) ηr)
    (hcrC : DftRoot (h + hk) ζc) (hwrC : DftRoot (w + wk) ζr)
    (h2 : (2 : R) ≠ 0)
    (hoffh : (hk + 1) / 2 ≤ h) (hoffw : (wk + 1) / 2 ≤ w)
    (s : State R) (r c : ℕ) (hr : r < h) (hc : c < w) :
    (convolve (init_workspace CIRCULAR_OPTIMAL h w hk wk ηc ηr) s).dst (r * w + c)
      = circularConvDirect h w hk wk s.src s.kernel r c
    ∧ (convolve (init_workspace CIRCULAR h w hk wk ζc ζr) s).dst (r * w + c)
      = sameLinearConv h w hk wk s.src s.kernel r c :=
  ⟨circular_convolution_optimal_dst (init_workspace CIRCULAR_OPTIMAL h w hk wk ηc ηr)
      s hcrO hwrO h2 (le_find_closest_factor (h + hk))
      (le_find_closest_factor (w + wk)) hoffh hoffw hr hc,
    circular_convolution_dst (init_workspace CIRCULAR h w hk wk ζc ζr) s
      hcrC hwrC h2 (show h + (hk + 1) / 2 ≤ h + hk by omega)
      (show w + (wk + 1) / 2 ≤ w + wk by omega) hr hc⟩

theorem claim_circular_optimal_amended_witness :
    DftRoot (find_closest_factor (1 + 1)) (⟨-1, 0⟩ : Cx ℚ)
    ∧ DftRoot (1 + 1) (⟨-1, 0⟩ : Cx ℚ) ∧ ((2 : ℚ) ≠ 0)
    ∧ (1 + 1) / 2 ≤ 1 ∧ (0 : ℕ) < 1
    ∧ ((convolve (init_workspace CIRCULAR_OPTIMAL 1 1 1 1 (⟨-1, 0⟩ : Cx ℚ) ⟨-1, 0⟩)
        (State.mk (fun _ => 1) (fun _ => 1) (fun _ => 0) (fun _ _ => 0)
          (fun _ _ => 0))).dst (0 * 1 + 0)
      = circularConvDirect 1 1 1 1
          (State.mk (fun _ => (1 : ℚ)) (fun _ => 1) (fun _ => 0) (fun _ _ => 0)
            (fun _ _ => 0)).src
          (State.mk (fun _ => (1 : ℚ)) (fun _ => 1) (fun _ => 0) (fun _ _ => 0)
            (fun _ _ => 0)).kernel 0 0
    ∧ (convolve (init_workspace CIRCULAR 1 1 1 1 (⟨-1, 0⟩ : Cx ℚ) ⟨-1, 0⟩)
        (State.mk (fun _ => 1) (fun _ => 1) (fun _ => 0) (fun _ _ => 0)
          (fun _ _ => 0))).dst (0 * 1 + 0)
      = sameLinearConv 1 1 1 1
          (State.mk (fun _ => (1 : ℚ)) (fun _ => 1) (fun _ => 0) (fun _ _ => 0)
            (fun _ _ => 0)).src
          (State.mk (fun _ => (1 : ℚ)) (fun _ => 1) (fun _ => 0) (fun _ _ => 0)
            (fun _ _ => 0)).kernel 0 0) :=
  ⟨dftRoot_fcf_two, dftRoot_two, by norm_num, by norm_num, by norm_num,
    claim_circular_optimal_amended 1 1 1 1 _ _ _ _ dftRoot_fcf_two dftRoot_fcf_two
      dftRoot_two dftRoot_two (by norm_num) (by norm_num) (by norm_num) _ 0 0
      (by norm_num) (by norm_num)⟩

/-- C6 counterexample: with the 2×2 delta source and 2×2 delta kernel,
CircularOptimal writes 1 at dst cell (1,1) (the delta wraps around) while
Circular writes 0 there (its padding suppresses the wrap), so the two modes
disagree. -/
theorem claim_circular_modes_counterexample :
    (convolve (init_workspace CIRCULAR_OPTIMAL 2 2 2 2 (⟨0, -1⟩ : Cx ℚ) ⟨0, -1⟩)
        (State.mk (fun n => if n = 0 then 1 else 0)
          (fun n => if n = 0 then 1 else 0) (fun _ => 0) (fun _ _ => 0)
          (fun _ _ => 0))).dst (1 * 2 + 1)
      ≠ (convolve (init_workspace CIRCULAR 2 2 2 2 (⟨0, -1⟩ : Cx ℚ) ⟨0, -1⟩)
        (State.mk (fun n => if n = 0 then 1 else 0)
          (fun n => if n = 0 then 1 else 0) (fun _ => 0) (fun _ _ => 0)
          (fun _ _ => 0))).dst (1 * 2 + 1) := by
  have e1 : (convolve (init_workspace CIRCULAR_OPTIMAL 2 2 2 2
          (⟨0, -1⟩ : Cx ℚ) ⟨0, -1⟩)
        (State.mk (fun n => if n = 0 then 1 else 0)
          (fun n => if n = 0 then 1 else 0) (fun _ => 0) (fun _ _ => 0)
          (fun _ _ => 0))).dst (1 * 2 + 1)
      = circularConvDirect 2 2 2 2 (fun n => if n = 0 then (1 : ℚ) else 0)
          (fun n => if n = 0 then 1 else 0) 1 1 :=
    circular_convolution_optimal_dst _ _ dftRoot_fcf_four dftRoot_fcf_four
      (by norm_num) (le_find_closest_factor (2 + 2)) (le_find_closest_factor (2 + 2))
      (by decide) (by decide) (by decide) (by decide)
  have e2 : (convolve (init_workspace CIRCULAR 2 2 2 2 (⟨0, -1⟩ : Cx ℚ) ⟨0, -1⟩)
        (State.mk (fun n => if n = 0 then 1 else 0)
          (fun n => if n = 0 then 1 else 0) (fun _ => 0) (fun _ _ => 0)
          (fun _ _ => 0))).dst (1 * 2 + 1)
      = sameLinearConv 2 2 2 2 (fun n => if n = 0 then (1 : ℚ) else 0)
          (fun n => if n = 0 then 1 else 0) 1 1 :=
    circular_convolution_dst _ _ dftRoot_four dftRoot_four (by norm_num)
      (by decide) (by decide) (by decide) (by decide)
  rw [e1, e2]
  norm_num [circularConvDirect, sameLinearConv, srcZ, Finset.sum_range_succ]

theorem sameLinearConv_unit [Field R] (h w : ℕ) (src kernel : ℕ → R)
    (hker : kernel 0 = 1) {r c : ℕ} (hr : r < h) (hc : c < w) :
    sameLinearConv h w 1 1 src kernel r c = src (r * w + c) := by
  unfold sameLinearConv srcZ
  rw [Finset.sum_range_one, Finset.sum_range_one]
  norm_num [hker]
  intro hcon
  exact absurd (hcon hr) (Nat.not_le.mpr hc)

theorem circularConvDirect_unit [Field R] (h w : ℕ) (src kernel : ℕ → R)
    (hker : kernel 0 = 1) {r c : ℕ} (hr : r < h) (hc : c < w) :
    circularConvDirect h w 1 1 src kernel r c = src (r * w + c) := by
  unfold circularConvDirect
  rw [Finset.sum_range_one, Finset.sum_range_one]
  norm_num [hker]
  rw [Int.emod_eq_of_lt (by positivity) (by exact_mod_cast hr),
    Int.emod_eq_of_lt (by positivity) (by exact_mod_cast hc)]
  norm_num

/-- C7: the 1-by-1 unit kernel is an identity for convolve in all four modes. -/
theorem claim_unit_kernel_identity [Field R] (h w : ℕ)
    (ζc ζr ηc ηr : Cx R)
    (hc1 : DftRoot (h + 1) ζc) (hw1 : DftRoot (w + 1) ζr)
    (hc2 : DftRoot (find_closest_factor (h + 1)) ηc)
    (hw2 : DftRoot (find_closest_factor (w + 1)) ηr)
    (h2 : (2 : R) ≠ 0) (s : State R) (hker : s.kernel 0 = 1)
    (r c : ℕ) (hr : r < h) (hc : c < w) :
    (convolve (init_workspace LINEAR h w 1 1 ζc ζr) s).dst (r * w + c)
        = s.src (r * w + c)
    ∧ (convolve (init_workspace LINEAR_OPTIMAL h w 1 1 ηc ηr) s).dst (r * w + c)
        = s.src (r * w + c)
    ∧ (convolve (init_workspace CIRCULAR h w 1 1 ζc ζr) s).dst (r * w + c)
        = s.src (r * w + c)
    ∧ (convolve (init_workspace CIRCULAR_OPTIMAL h w 1 1 ηc ηr) s).dst (r * w + c)
        = s.src (r * w + c) := by
  have ehh : h + (1 + 1) / 2 = h + 1 := by norm_num
  have eww : w + (1 + 1) / 2 = w + 1 := by norm_num
  have hc1' : DftRoot (h + (1 + 1) / 2) ζc := by rw [ehh]; exact hc1
  have hw1' : DftRoot (w + (1 + 1) / 2) ζr := by rw [eww]; exact hw1
  have hc2' : DftRoot (find_closest_factor (h + (1 + 1) / 2)) ηc := by
    rw [ehh]; exact hc2
  have hw2' : DftRoot (find_closest_factor (w + (1 + 1) / 2)) ηr := by
    rw [eww]; exact hw2
  have hH1 : h + (1 + 1) / 2 ≤ h + (1 + 1) / 2 := le_refl _
  have hW1 : w + (1 + 1) / 2 ≤ w + (1 + 1) / 2 := le_refl _
  have hH2 : h + (1 + 1) / 2 ≤ h + 1 := by omega
  have hW2 : w + (1 + 1) / 2 ≤ w + 1 := by omega
  have hoffh : (1 + 1) / 2 ≤ h := by omega
  have hoffw : (1 + 1) / 2 ≤ w := by omega
  refine ⟨?_, ?_, ?_, ?_⟩
  · exact (linear_convolution_dst (init_workspace LINEAR h w 1 1 ζc ζr) s
      hc1' hw1' h2 hH1 hW1 hr hc).trans
      (sameLinearConv_unit h w s.src s.kernel hker hr hc)
  · exact (linear_convolution_dst (init_workspace LINEAR_OPTIMAL h w 1 1 ηc ηr) s
      hc2' hw2' h2 (le_find_closest_factor (h + (1 + 1) / 2))
      (le_find_closest_factor (w + (1 + 1) / 2)) hr hc).trans
      (sameLinearConv_unit h w s.src s.kernel hker hr hc)
  · exact (circular_convolution_dst (init_workspace CIRCULAR h w 1 1 ζc ζr) s
      hc1 hw1 h2 hH2 hW2 hr hc).trans
      (sameLinearConv_unit h w s.src s.kernel hker hr hc)
  · exact (circular_convolution_optimal_dst
      (init_workspace CIRCULAR_OPTIMAL h w 1 1 ηc ηr) s hc2 hw2 h2
      (le_find_closest_factor (h + 1)) (le_find_closest_factor (w + 1))
      hoffh hoffw hr hc).trans
      (circularConvDirect_unit h w s.src s.kernel hker hr hc)

theorem claim_unit_kernel_identity_witness :
    DftRoot (1 + 1) (⟨-1, 0⟩ : Cx ℚ)
    ∧ DftRoot (find_closest_factor (1 + 1)) (⟨-1, 0⟩ : Cx ℚ)
    ∧ ((2 : ℚ) ≠ 0)
    ∧ (State.mk (fun n => if n = 0 then (2 : ℚ) else 3) (fun _ => 1) (fun _ => 0)
        (fun _ _ => 0) (fun _ _ => 0)).kernel 0 = 1
    ∧ (0 : ℕ) < 1
    ∧ ((convolve (init_workspace LINEAR 1 1 1 1 (⟨-1, 0⟩ : Cx ℚ) ⟨-1, 0⟩)
        (State.mk (fun n => if n = 0 then (2 : ℚ) else 3) (fun _ => 1) (fun _ => 0)
          (fun _ _ => 0) (fun _ _ => 0))).dst (0 * 1 + 0)
      = (State.mk (fun n => if n = 0 then (2 : ℚ) else 3) (fun _ => 1) (fun _ => 0)
          (fun _ _ => 0) (fun _ _ => 0)).src (0 * 1 + 0)
    ∧ (convolve (init_workspace LINEAR_OPTIMAL 1 1 1 1 (⟨-1, 0⟩ : Cx ℚ) ⟨-1, 0⟩)
        (State.mk (fun n => if n = 0 then (2 : ℚ) else 3) (fun _ => 1) (fun _ => 0)
          (fun _ _ => 0) (fun _ _ => 0))).dst (0 * 1 + 0)
      = (State.mk (fun n => if n = 0 then (2 : ℚ) else 3) (fun _ => 1) (fun _ => 0)
          (fun _ _ => 0) (fun _ _ => 0)).src (0 * 1 + 0)
    ∧ (convolve (init_workspace CIRCULAR 1 1 1 1 (⟨-1, 0⟩ : Cx ℚ) ⟨-1, 0⟩)
        (State.mk (fun n => if n = 0 then (2 : ℚ) else 3) (fun _ => 1) (fun _ => 0)
          (fun _ _ => 0) (fun _ _ => 0))).dst (0 * 1 + 0)
      = (State.mk (fun n => if n = 0 then (2 : ℚ) else 3) (fun _ => 1) (fun _ => 0)
          (fun _ _ => 0) (fun _ _ => 0)).src (0 * 1 + 0)
    ∧ (convolve (init_workspace CIRCULAR_OPTIMAL 1 1 1 1 (⟨-1, 0⟩ : Cx ℚ) ⟨-1, 0⟩)
        (State.mk (fun n => if n = 0 then (2 : ℚ) else 3) (fun _ => 1) (fun _ => 0)
          (fun _ _ => 0) (fun _ _ => 0))).dst (0 * 1 + 0)
      = (State.mk (fun n => if n = 0 then (2 : ℚ) else 3) (fun _ => 1) (fun _ => 0)
          (fun _ _ => 0) (fun _ _ => 0)).src (0 * 1 + 0)) :=
  ⟨dftRoot_two, dftRoot_fcf_two, by norm_num, rfl, by norm_num,
    claim_unit_kernel_identity 1 1 _ _ _ _ dftRoot_two dftRoot_two
      dftRoot_fcf_two dftRoot_fcf_two (by norm_num) _ rfl 0 0
      (by norm_num) (by norm_num)⟩

/-- The negated-index modulo of the claim's mirror formula agrees with the
code's `(H - i) % H` on the loop window. -/
theorem mirror_idx_eq {H i : ℕ} (hi : i < H) :
    ((-(i : ℤ)) % (H : ℤ)).toNat = (H - i) % H := by
  rcases Nat.eq_zero_or_pos i with h0 | h0
  · subst h0
    simp [Nat.mod_self]
  · have h1 : (-(i : ℤ)) % (H : ℤ) = ((H : ℤ) - i) % H := by
      conv_lhs => rw [show (-(i : ℤ)) = ((H : ℤ) - i) + H * (-1) from by ring,
        Int.add_mul_emod_self_left]
    rw [h1, Int.emod_eq_of_lt (by omega) (by omega),
      Nat.mod_eq_of_lt (by omega)]
    omega

/-- The spectral-product formula as the claim words it: the Hermitian-mirror
partner taken at index ((-i) mod H, (-j) mod W) with negated imaginary part. -/
def specSpectralProduct [Field R] (H W : ℕ) (b : ℕ → ℕ → Cx R) : ℕ → ℕ → Cx R :=
  fun i j =>
    let m := ((-(i : ℤ)) % (H : ℤ)).toNat
    let n := ((-(j : ℤ)) % (W : ℤ)).toNat
    let re_h := (b i j).re
    let im_h := (b i j).im
    let re_hs := (b m n).re
    let im_hs := -((b m n).im)
    ⟨(1 / 2 : R) * (re_h * im_h - re_hs * im_hs),
      -(1 / 4 : R) * (re_h * re_h - im_h * im_h - re_hs * re_hs + im_hs * im_hs)⟩

/-- C2: the pointwise spectral-product stage computes exactly the claimed
closed form at every buffer index, and all four mode routines feed their
forward-transformed buffer through that same stage. -/
theorem claim_spectral_product_formula [Field R] (ws : Workspace R) (s : State R)
    (Z : ℕ → ℕ → Cx R) (i j : ℕ) (hi : i < ws.h_res) (hj : j < ws.w_res) :
    spectral_product ws.h_res ws.w_res Z i j
      = specSpectralProduct ws.h_res ws.w_res Z i j
    ∧ (linear_convolution ws s).fft_copy
      = inverse_columns ws.wv_column ws.h_res (inverse_lines ws.wv_line ws.w_res
          (spectral_product ws.h_res ws.w_res (linear_convolution ws s).fft))
    ∧ (linear_convolution_optimal ws s).fft_copy
      = inverse_columns ws.wv_column ws.h_res (inverse_lines ws.wv_line ws.w_res
          (spectral_product ws.h_res ws.w_res (linear_convolution_optimal ws s).fft))
    ∧ (circular_convolution ws s).fft_copy
      = inverse_columns ws.wv_column ws.h_res (inverse_lines ws.wv_line ws.w_res
          (spectral_product ws.h_res ws.w_res (circular_convolution ws s).fft))
    ∧ (circular_convolution_optimal ws s).fft_copy
      = inverse_columns ws.wv_column ws.h_res (inverse_lines ws.wv_line ws.w_res
          (spectral_product ws.h_res ws.w_res
            (circular_convolution_optimal ws s).fft)) := by
  refine ⟨?_, rfl, rfl, rfl, rfl⟩
  simp only [spectral_product, specSpectralProduct]
  rw [mirror_idx_eq hi, mirror_idx_eq hj]

theorem claim_spectral_product_formula_witness :
    (0 : ℕ) < (Workspace.mk 1 1 1 1 1 1 0 (0 : Cx ℚ) 0).h_res
    ∧ (spectral_product (Workspace.mk 1 1 1 1 1 1 0 (0 : Cx ℚ) 0).h_res
          (Workspace.mk 1 1 1 1 1 1 0 (0 : Cx ℚ) 0).w_res (fun _ _ => (⟨1, 2⟩ : Cx ℚ)) 0 0
        = specSpectralProduct (Workspace.mk 1 1 1 1 1 1 0 (0 : Cx ℚ) 0).h_res
          (Workspace.mk 1 1 1 1 1 1 0 (0 : Cx ℚ) 0).w_res (fun _ _ => (⟨1, 2⟩ : Cx ℚ)) 0 0) :=
  ⟨by norm_num,
    (claim_spectral_product_formula (Workspace.mk 1 1 1 1 1 1 0 (0 : Cx ℚ) 0)
      (State.mk (fun _ => 0) (fun _ => 0) (fun _ => 0) (fun _ _ => 0) (fun _ _ => 0))
      (fun _ _ => (⟨1, 2⟩ : Cx ℚ)) 0 0 (by norm_num) (by norm_num)).1⟩

/-- Modelled from the source's C int arithmetic (lines 371-382): the wrapped
index as the int computation performs it, with a single conditional add or
subtract of the dimension (not a full modulo). -/
def wrapSrcIdxZ (i off n : ℤ) : ℤ :=
  if i - off < 0 then i - off + n else if n ≤ i - off then i - off - n else i - off

/-- Under the precondition, every wrapped index the extension loop produces
stays inside the source. -/
theorem wrapSrcIdx_lt {n k i : ℕ} (hpre : (k + 1) / 2 ≤ n) (hn : 0 < n)
    (hi : i < n + k) : wrapSrcIdx i ((k + 1) / 2) n < n := by
  unfold wrapSrcIdx
  split_ifs <;> omega

/-- C8: over the extension loop's index range, the conditional add/subtract
wrap stays within [0, dim) in an axis exactly when ⌈kernel_dim/2⌉ ≤ src_dim;
under that precondition the int computation agrees with the ℕ-level index
used by the packing model, and every source cell the packing reads lies
inside the source allocation. -/
theorem claim_extension_wrap_safety [Field R] (ws : Workspace R) (src : ℕ → R)
    (hh : 0 < ws.h_src) (hw : 0 < ws.w_src) :
    (∀ n k : ℕ, 0 < n →
      ((∀ i : ℕ, i < n + k →
          0 ≤ wrapSrcIdxZ i (((k + 1) / 2 : ℕ) : ℤ) n
            ∧ wrapSrcIdxZ i (((k + 1) / 2 : ℕ) : ℤ) n < n)
        ↔ (k + 1) / 2 ≤ n))
    ∧ (∀ n k : ℕ, (k + 1) / 2 ≤ n → ∀ i : ℕ, i < n + k →
        ((wrapSrcIdx i ((k + 1) / 2) n : ℕ) : ℤ)
          = wrapSrcIdxZ i (((k + 1) / 2 : ℕ) : ℤ) n)
    ∧ ((ws.h_kernel + 1) / 2 ≤ ws.h_src → (ws.w_kernel + 1) / 2 ≤ ws.w_src →
        ∀ pr ∈ extensionWrites ws src,
          ∃ t : ℕ, t < ws.h_src * ws.w_src ∧ pr.2 = src t) := by
  refine ⟨?_, ?_, ?_⟩
  · intro n k hn
    constructor
    · intro hall
      by_contra hpre
      have h0 := hall 0 (by omega)
      unfold wrapSrcIdxZ at h0
      split_ifs at h0 <;> omega
    · intro hpre i hi
      unfold wrapSrcIdxZ
      split_ifs <;> constructor <;> omega
  · intro n k hpre i hi
    unfold wrapSrcIdx wrapSrcIdxZ
    split_ifs <;> omega
  · intro hp1 hp2 pr hpr
    simp only [extensionWrites, List.mem_flatMap, List.mem_map,
      List.mem_range] at hpr
    obtain ⟨i, hi, j, hj, rfl⟩ := hpr
    refine ⟨wrapSrcIdx i ((ws.h_kernel + 1) / 2) ws.h_src * ws.w_src
      + wrapSrcIdx j ((ws.w_kernel + 1) / 2) ws.w_src, ?_, rfl⟩
    have b1 := wrapSrcIdx_lt hp1 hh hi
    have b2 := wrapSrcIdx_lt hp2 hw hj
    calc wrapSrcIdx i ((ws.h_kernel + 1) / 2) ws.h_src * ws.w_src
          + wrapSrcIdx j ((ws.w_kernel + 1) / 2) ws.w_src
        < (wrapSrcIdx i ((ws.h_kernel + 1) / 2) ws.h_src + 1) * ws.w_src := by
          rw [add_mul, one_mul]
          omega
      _ ≤ ws.h_src * ws.w_src := Nat.mul_le_mul_right _ b1

theorem claim_extension_wrap_safety_witness :
    (0 : ℕ) < (Workspace.mk 1 1 1 1 2 2 3 (0 : Cx ℚ) 0).h_src
    ∧ ((1 + 1) / 2 ≤ (1 : ℕ)
    ∧ ∀ pr ∈ extensionWrites (Workspace.mk 1 1 1 1 2 2 3 (0 : Cx ℚ) 0)
        (fun n => (n : ℚ) + 5),
        ∃ t : ℕ, t < (Workspace.mk 1 1 1 1 2 2 3 (0 : Cx ℚ) 0).h_src
            * (Workspace.mk 1 1 1 1 2 2 3 (0 : Cx ℚ) 0).w_src
          ∧ pr.2 = ((t : ℚ) + 5)) :=
  ⟨by norm_num, by norm_num,
    (claim_extension_wrap_safety (Workspace.mk 1 1 1 1 2 2 3 (0 : Cx ℚ) 0)
      (fun n => (n : ℚ) + 5) (by norm_num) (by norm_num)).2.2
      (by norm_num) (by norm_num)⟩

end FFTConv
